import Mathlib

/-!
Verification development for the video-localization pipeline of this repository.

The server code is JavaScript; the definitions below are a shallow embedding of
the relevant routines:

* strings are modelled as lists of Unicode code points (`Str := List Nat`);
  the regexes in the source use the `u` flag, so they operate on code points;
* timestamps and durations are modelled as rationals (`ℚ`); all numeric
  literals appearing in the source (`0.5`, `0.3`, `1.0`, `0.7`, …) are exactly
  representable in binary or only ever compared across decimal grids where
  IEEE doubles and rationals agree, so ℚ is a faithful model of the
  comparisons actually performed;
* character classes (`\p{L}`, `\p{N}`, `\s`) and `toLowerCase`/`toUpperCase`
  are modelled over the repertoire the pipeline handles (ASCII, Latin-1,
  Latin Extended-A, Greek — the source/target languages are Slovenian,
  HR/CZ/PL/GR/IT/HU/SK); code points outside those blocks are classified as
  non-letters.
-/

namespace VideoLocalizer

/-- A JS string, as its list of Unicode code points. -/
abbrev Str := List Nat

/-- Code points of a Lean string literal, used to transcribe the string
literals of the source. -/
def ofString (s : String) : Str := s.data.map Char.toNat

/-- JS `\s` (whitespace) over the standard WhiteSpace/LineTerminator set. -/
def isSpaceCP (n : Nat) : Bool :=
  decide (n = 0x20 ∨ (0x9 ≤ n ∧ n ≤ 0xD) ∨ n = 0xA0 ∨ n = 0x1680 ∨
    (0x2000 ≤ n ∧ n ≤ 0x200A) ∨ n = 0x2028 ∨ n = 0x2029 ∨ n = 0x202F ∨
    n = 0x205F ∨ n = 0x3000 ∨ n = 0xFEFF)

/-- JS `\p{N}` restricted to the decimal digits appearing in the data. -/
def isNumCP (n : Nat) : Bool := decide (0x30 ≤ n ∧ n ≤ 0x39)

/-- JS `\p{L}` over the Latin/Greek repertoire the pipeline handles:
ASCII letters, the Latin-1 letters (including `ª µ º`, excluding `× ÷`),
Latin Extended-A/B, and the Greek block minus its few non-letter code
points. -/
def isLetterCP (n : Nat) : Bool :=
  decide ((0x41 ≤ n ∧ n ≤ 0x5A) ∨ (0x61 ≤ n ∧ n ≤ 0x7A) ∨
    n = 0xAA ∨ n = 0xB5 ∨ n = 0xBA ∨
    (0xC0 ≤ n ∧ n ≤ 0x24F ∧ n ≠ 0xD7 ∧ n ≠ 0xF7) ∨
    (0x370 ≤ n ∧ n ≤ 0x3FF ∧ n ≠ 0x374 ∧ n ≠ 0x375 ∧ n ≠ 0x37E ∧
      n ≠ 0x384 ∧ n ≠ 0x385 ∧ n ≠ 0x387 ∧ n ≠ 0x3A2))

/-- `String.prototype.toLowerCase`, code-point-wise, over the same
repertoire (ASCII, Latin-1, Latin Extended-A, Greek). -/
def toLowerCP (n : Nat) : Nat :=
  if 0x41 ≤ n ∧ n ≤ 0x5A then n + 32
  else if 0xC0 ≤ n ∧ n ≤ 0xDE ∧ n ≠ 0xD7 then n + 32
  else if 0x100 ≤ n ∧ n ≤ 0x137 ∧ n % 2 = 0 then n + 1
  else if 0x139 ≤ n ∧ n ≤ 0x148 ∧ n % 2 = 1 then n + 1
  else if 0x14A ≤ n ∧ n ≤ 0x177 ∧ n % 2 = 0 then n + 1
  else if n = 0x178 then 0xFF
  else if 0x179 ≤ n ∧ n ≤ 0x17E ∧ n % 2 = 1 then n + 1
  else if n = 0x386 then 0x3AC
  else if 0x388 ≤ n ∧ n ≤ 0x38A then n + 0x25
  else if n = 0x38C then 0x3CC
  else if 0x38E ≤ n ∧ n ≤ 0x38F then n + 0x3F
  else if 0x391 ≤ n ∧ n ≤ 0x3AB ∧ n ≠ 0x3A2 then n + 32
  else n

/-- `String.prototype.toUpperCase`, code-point-wise, over the same
repertoire (the length-changing special case `ß → SS` is outside the
modelled repertoire). -/
def toUpperCP (n : Nat) : Nat :=
  if 0x61 ≤ n ∧ n ≤ 0x7A then n - 32
  else if 0xE0 ≤ n ∧ n ≤ 0xFE ∧ n ≠ 0xF7 then n - 32
  else if n = 0xFF then 0x178
  else if 0x101 ≤ n ∧ n ≤ 0x137 ∧ n % 2 = 1 then n - 1
  else if 0x13A ≤ n ∧ n ≤ 0x148 ∧ n % 2 = 0 then n - 1
  else if 0x14B ≤ n ∧ n ≤ 0x177 ∧ n % 2 = 1 then n - 1
  else if 0x17A ≤ n ∧ n ≤ 0x17E ∧ n % 2 = 0 then n - 1
  else if n = 0x3AC then 0x386
  else if 0x3AD ≤ n ∧ n ≤ 0x3AF then n - 0x25
  else if n = 0x3CC then 0x38C
  else if 0x3CD ≤ n ∧ n ≤ 0x3CE then n - 0x3F
  else if n = 0x3C2 then 0x3A3
  else if 0x3B1 ≤ n ∧ n ≤ 0x3CB ∧ n ≠ 0x3C2 then n - 32
  else n

/-- The six code-point ranges stripped by the `normalizedText` chain of
`replace` calls in the `/api/localizer/analyze` handler (emoji, misc
symbols, dingbats, variation selectors, mahjong, playing cards). -/
def isStrippedRange (n : Nat) : Bool :=
  decide ((0x1F300 ≤ n ∧ n ≤ 0x1F9FF) ∨ (0x2600 ≤ n ∧ n ≤ 0x26FF) ∨
    (0x2700 ≤ n ∧ n ≤ 0x27BF) ∨ (0xFE00 ≤ n ∧ n ≤ 0xFE0F) ∨
    (0x1F000 ≤ n ∧ n ≤ 0x1F02F) ∨ (0x1F0A0 ≤ n ∧ n ≤ 0x1F0FF))

/-- The emoji range `\u{1F300}-\u{1F9FF}` stripped first by `stripForCompare`. -/
def isEmojiMain (n : Nat) : Bool := decide (0x1F300 ≤ n ∧ n ≤ 0x1F9FF)

/-- The class kept by `replace(/[^\p{L}\p{N}\s]/gu, '')`. -/
def keepCP (n : Nat) : Bool := isLetterCP n || isNumCP n || isSpaceCP n

/-- `String.prototype.trim`: drop leading whitespace, then trailing
whitespace (the latter as a leading drop on the reversal). -/
def jsTrim (s : Str) : Str :=
  ((s.dropWhile isSpaceCP).reverse.dropWhile isSpaceCP).reverse

/-- `replace(/\s+/g, ' ')`: collapse each maximal whitespace run to a single
space. -/
def collapseWs : Str → Str
  | [] => []
  | [c] => if isSpaceCP c then [0x20] else [c]
  | c₁ :: c₂ :: rest =>
    if isSpaceCP c₁ && isSpaceCP c₂ then collapseWs (c₂ :: rest)
    else (if isSpaceCP c₁ then 0x20 else c₁) :: collapseWs (c₂ :: rest)

/-- The `normalizedText` computation of the analyze handler: strip the six
emoji/symbol ranges, then `trim()` (original casing is kept). -/
def normalizedText (s : Str) : Str :=
  jsTrim (s.filter (fun c => !isStrippedRange c))

/-- `stripForCompare` (also `stripForCompare2` and `normalizeForMerge`, which
are textually identical in the source): strip the main emoji range, keep only
letters/digits/whitespace, collapse whitespace, trim, lower-case. -/
def stripForCompare (s : Str) : Str :=
  (jsTrim (collapseWs
    (((s.filter (fun c => !isEmojiMain c)).filter keepCP)))).map toLowerCP

/-!
## Segment Builder (`POST /api/localizer/analyze`)

Frames are sampled at 2 fps, so frame `i` (0-based) has timestamp `i * 0.5`
and `frameInterval = 0.5`.  The input of the builder is the per-frame list of
raw detected text strings (one list per successfully parsed frame, in frame
order); position metadata (`x`, `y`, `position`) is carried through the
source unchanged and does not influence matching, timing or filtering, so it
is omitted from the embedding.
-/

/-- `frameInterval = 0.5` seconds (2 fps sampling). -/
def frameInterval : ℚ := 1/2

/-- One entry of the handler's working `texts` array:
`{ text, start, end, closed }`. -/
structure TextEntry where
  text : Str
  start : ℚ
  tEnd : ℚ
  closed : Bool
deriving DecidableEq, Repr

/-- The open-entry match used by
`texts.find(x => !x.closed && (x.text === normalizedText ||
x.text.toLowerCase() === normalizedText.toLowerCase() ||
stripForCompare(x.text) === normalizedForCompare))`. -/
def entryMatches (x : TextEntry) (nt : Str) : Bool :=
  !x.closed && (x.text == nt
    || x.text.map toLowerCP == nt.map toLowerCP
    || stripForCompare x.text == stripForCompare nt)

/-- Find the first open matching entry; extend it when the gap
`timestamp - existing.end` is within one frame interval, otherwise report
no extension (the handler then pushes a fresh entry — the same effect as
when no entry matches at all). -/
def extendFirst (ts : ℚ) (nt : Str) : List TextEntry → Option (List TextEntry)
  | [] => none
  | x :: xs =>
    if entryMatches x nt then
      if ts - x.tEnd ≤ frameInterval then
        some ({ x with tEnd := ts + frameInterval } :: xs)
      else none
    else (extendFirst ts nt xs).map (x :: ·)

/-- Process one raw detection of the current frame (`parsed.texts.forEach`):
normalize, discard if empty, extend the first open match or push a new
entry `{ text, start: ts, end: ts + frameInterval, closed: false }`. -/
def processDetection (ts : ℚ) (texts : List TextEntry) (raw : Str) :
    List TextEntry :=
  let nt := normalizedText raw
  if nt = [] then texts
  else
    match extendFirst ts nt texts with
    | some l => l
    | none => texts ++ [⟨nt, ts, ts + frameInterval, false⟩]

/-- The close-on-absence pass: any open entry whose `stripForCompare` text is
not among the current frame's normalized detections, with `ts > start`, is
closed at the current timestamp. -/
def closeAbsent (ts : ℚ) (currentNorms : List Str) (texts : List TextEntry) :
    List TextEntry :=
  texts.map fun t =>
    if t.closed = false ∧ currentNorms.contains (stripForCompare t.text) = false
        ∧ t.start < ts then
      { t with tEnd := ts, closed := true }
    else t

/-- One frame of the analyze loop: process its detections in order, then run
the close-on-absence pass against the frame's normalized detection set. -/
def processFrame (ts : ℚ) (texts : List TextEntry) (dets : List Str) :
    List TextEntry :=
  closeAbsent ts (dets.map stripForCompare) (dets.foldl (processDetection ts) texts)

/-- The analyze loop over all frames; frame `i` has timestamp `i * 0.5`. -/
def runFrames : Nat → List TextEntry → List (List Str) → List TextEntry
  | _, texts, [] => texts
  | i, texts, f :: rest => runFrames (i + 1) (processFrame ((i : ℚ) / 2) texts f) rest

/-- Close any still-open entries at the end of the stream, at
`(lastFrame - 1) * 0.5 + 0.5 = n * 0.5` for `n` frames (no-op when there
were no frames). -/
def closeAll (texts : List TextEntry) (n : Nat) : List TextEntry :=
  if n = 0 then texts
  else texts.map fun t => if t.closed then t else { t with tEnd := (n : ℚ) / 2 }

/-- `BRAND_FILTER` of the post-processing filter. -/
def BRAND_FILTER : List Str :=
  ["noriks", "nike", "adidas", "puma", "under armour", "calvin klein",
   "tommy hilfiger", "hugo boss", "lacoste", "ralph lauren", "armani",
   "diesel", "levis", "gap", "zara", "h&m", "nano"].map ofString

/-- `SIZE_FILTER` of the post-processing filter. -/
def SIZE_FILTER : List Str :=
  ["xs", "s", "m", "l", "xl", "2xl", "3xl", "4xl", "5xl", "xxl", "xxxl"].map ofString

/-- JS `String.prototype.replace(' ', '')` with a string pattern: remove the
first space only. -/
def removeFirstSpace : Str → Str
  | [] => []
  | c :: rest => if c = 0x20 then rest else c :: removeFirstSpace rest

/-- Strip an exact literal prefix, returning the rest of the string. -/
def dropLit : Str → Str → Option Str
  | [], s => some s
  | _, [] => none
  | p :: ps, c :: cs => if p = c then dropLit ps cs else none

/-- `/^noriks\s*\d*x*l$/i` on the already-lower-cased text.  Each starred
class is disjoint from the character that follows it, so maximal munch is
exact. -/
def noriksSizeRe1 (s : Str) : Bool :=
  match dropLit (ofString "noriks") s with
  | none => false
  | some r =>
    ((r.dropWhile isSpaceCP).dropWhile isNumCP).dropWhile (· = 0x78) = [0x6C]

/-- `/^\d*x*l\s*noriks$/i` on the already-lower-cased text. -/
def noriksSizeRe2 (s : Str) : Bool :=
  match (s.dropWhile isNumCP).dropWhile (· = 0x78) with
  | 0x6C :: rest => rest.dropWhile isSpaceCP = ofString "noriks"
  | _ => false

/-- ASCII `[a-z]` (the input is lower-cased before the test). -/
def isAsciiLower (n : Nat) : Bool := decide (0x61 ≤ n ∧ n ≤ 0x7A)

/-- The `(shirts|done|better)` prefix alternative of the brand-combination
regex. -/
def brandComboTail (r : Str) : Bool :=
  (dropLit (ofString "shirts") r).isSome || (dropLit (ofString "done") r).isSome
    || (dropLit (ofString "better") r).isSome

/-- `/^[a-z]+\s+(simple\s+)?(shirts|done|better)/i` (a prefix test, not
anchored at the end) on the already-lower-cased text. -/
def brandComboRe (s : Str) : Bool :=
  match s with
  | [] => false
  | c :: _ =>
    if isAsciiLower c then
      match s.dropWhile isAsciiLower with
      | [] => false
      | d :: _ =>
        if isSpaceCP d then
          let r2 := (s.dropWhile isAsciiLower).dropWhile isSpaceCP
          brandComboTail r2 ||
            (match dropLit (ofString "simple") r2 with
             | some r3 =>
               match r3 with
               | e :: _ => isSpaceCP e && brandComboTail (r3.dropWhile isSpaceCP)
               | [] => false
             | none => false)
        else false
    else false

/-- The text-content part of the `filteredTexts` predicate on
`textLower = t.text.toLowerCase().trim()`: not a brand name (with or
without its space), not a size label, not a brand+size combination, not a
brand-phrase prefix, not shorter than 3 characters. -/
def textFilterOK (textLower : Str) : Bool :=
  !(BRAND_FILTER.any fun b => textLower == b || textLower == removeFirstSpace b)
    && !(SIZE_FILTER.contains textLower)
    && !(noriksSizeRe1 textLower) && !(noriksSizeRe2 textLower)
    && !(brandComboRe textLower)
    && !(textLower.length < 3)

/-- The whole `filteredTexts` predicate: the text-content checks plus the
70%-of-video duration cutoff (`n` frames at 2 fps give
`videoLength = n * 0.5`). -/
def passesFilters (n : Nat) (e : TextEntry) : Bool :=
  textFilterOK (jsTrim (e.text.map toLowerCP))
    && !(decide (e.tEnd - e.start > (n : ℚ) * (1/2) * (7/10)))

/-- A finished text segment `{ text, start, end }` (the untouched position
fields are omitted). -/
structure Seg where
  text : Str
  start : ℚ
  tEnd : ℚ
deriving DecidableEq, Repr

/-- Stable insertion used to model `filteredTexts.sort((a, b) => a.start - b.start)`
(JS `Array.prototype.sort` is stable). -/
def insertByStart (t : Seg) : List Seg → List Seg
  | [] => [t]
  | m :: ms => if t.start ≤ m.start then t :: m :: ms else m :: insertByStart t ms

/-- Stable sort by `start`. -/
def sortByStart (l : List Seg) : List Seg := l.foldr insertByStart []

/-- The final merge pass: find the first already-merged segment with exactly
the same normalized text that overlaps or is consecutive (`0 < gap ≤ 0.5`)
and widen it to `min(start)`/`max(end)`; `none` when no such segment exists
(the handler then pushes the segment unchanged). -/
def mergeInto (t : Seg) : List Seg → Option (List Seg)
  | [] => none
  | m :: ms =>
    if stripForCompare m.text = stripForCompare t.text ∧
        ((t.start ≤ m.tEnd ∧ m.start ≤ t.tEnd) ∨
          (0 < t.start - m.tEnd ∧ t.start - m.tEnd ≤ 1/2)) then
      some ({ m with start := min m.start t.start, tEnd := max m.tEnd t.tEnd } :: ms)
    else (mergeInto t ms).map (m :: ·)

/-- One step of `filteredTexts.forEach` building `mergedTexts`. -/
def mergeStep (acc : List Seg) (t : Seg) : List Seg :=
  match mergeInto t acc with
  | some l => l
  | none => acc ++ [t]

/-- The whole Segment Builder: run the per-frame open/extend/close algorithm,
close the remaining open entries at the end of the stream, apply the
brand/size/length/duration filters, sort by start time, and merge duplicate
segments.  Input: the list of per-frame raw detection texts (frame `i` at
timestamp `i * 0.5`). -/
def segmentBuilder (frames : List (List Str)) : List Seg :=
  (sortByStart (((closeAll (runFrames 0 [] frames) frames.length).filter
      (passesFilters frames.length)).map
    fun e => ⟨e.text, e.start, e.tEnd⟩)).foldl mergeStep []

/-!
## Proof-support predicates

These predicates are not part of the embedded program; they name the
invariants carried through the proofs below.
-/

/-- A collapsed-whitespace string: every whitespace character is a plain
space, and no two adjacent characters are both whitespace. -/
def NormSpaces (l : Str) : Prop :=
  (∀ c ∈ l, isSpaceCP c = true → c = 0x20) ∧
  List.Chain' (fun a b => isSpaceCP a = false ∨ isSpaceCP b = false) l

/-- Invariant of the builder's working list after processing all frames up
to timestamp `b`: positive extent, end within one frame interval of `b`,
started no later than `b`, and nonempty normalized text. -/
def EntryInv (b : ℚ) (e : TextEntry) : Prop :=
  e.start < e.tEnd ∧ e.tEnd ≤ b + 1/2 ∧ e.start ≤ b ∧ e.text ≠ []

/-- Invariant of a finished segment of an `n`-frame video: positive extent,
end bounded by the last frame's timestamp plus one frame interval
(`n * 0.5`), nonempty text. -/
def SegInv (n : Nat) (s : Seg) : Prop :=
  s.start < s.tEnd ∧ s.tEnd ≤ (n : ℚ) / 2 ∧ s.text ≠ []

/-!
## Scene Splitter (`POST /api/localizer/smart-analyze`)

The handler seeds `rawSceneTimes = [0]`, keeps each parsed `pts_time` whose
gap from the previously kept time is at least `0.3`, builds `[start, end)`
intervals (the last one ending at the video duration), repeatedly merges any
interval shorter than `MIN_DURATION = 1.0` into its next neighbour (or the
previous one when it is last), and finally rounds every bound to one decimal.
-/

/-- A scene interval `{ start, end }` (its `texts` field is always `[]` and
is omitted). -/
structure Scene where
  start : ℚ
  tEnd : ℚ
deriving DecidableEq, Repr

/-- The coalescing scan: keep a parsed time iff its distance from the last
kept time is at least `0.3`. -/
def coalesceAux (last : ℚ) : List ℚ → List ℚ
  | [] => []
  | t :: rest =>
    if 3/10 ≤ t - last then t :: coalesceAux t rest else coalesceAux last rest

/-- `rawSceneTimes`: the seed `0` followed by the coalesced parsed times. -/
def rawSceneTimes (times : List ℚ) : List ℚ := 0 :: coalesceAux 0 times

/-- Raw interval construction: each cut up to the next one, the last up to
the total duration.  (`rawSceneTimes[i+1] || totalSeconds` in the source: a
zero next cut would also fall back to the total, which is kept for
faithfulness although kept cuts are never `0`.) -/
def mkIntervals (total : ℚ) : List ℚ → List Scene
  | [] => []
  | [a] => [⟨a, total⟩]
  | a :: b :: rest => ⟨a, if b = 0 then total else b⟩ :: mkIntervals total (b :: rest)

/-- One pass of the merge loop: find the first interval shorter than
`MIN_DURATION = 1.0` (the loop body only runs while more than one interval
remains), merge it into the next interval, or into the previous one when it
is the last; `none` when no interval violates the minimum. -/
def mergeOnce : List Scene → Option (List Scene)
  | [] => none
  | [_] => none
  | [s, t] =>
    if s.tEnd - s.start < 1 then some [{ t with start := s.start }]
    else if t.tEnd - t.start < 1 then some [{ s with tEnd := t.tEnd }]
    else none
  | s :: t :: u :: rest =>
    if s.tEnd - s.start < 1 then some ({ t with start := s.start } :: u :: rest)
    else (mergeOnce (t :: u :: rest)).map (s :: ·)

/-- The `while (merged)` loop, run with fuel `segments.length`: every merge
removes exactly one interval, so that fuel suffices and the fuelled loop
equals the unbounded one. -/
def mergeLoopFuel : Nat → List Scene → List Scene
  | 0, l => l
  | n + 1, l =>
    match mergeOnce l with
    | some l' => mergeLoopFuel n l'
    | none => l

/-- The merge loop of the handler. -/
def mergeLoop (l : List Scene) : List Scene := mergeLoopFuel l.length l

/-- `Math.round(x * 10) / 10` (JS `Math.round` is `⌊x + 1/2⌋`). -/
def round1 (q : ℚ) : ℚ := (⌊q * 10 + 1/2⌋ : ℚ) / 10

/-- The whole Scene Splitter: coalesce the parsed cut times, build raw
intervals over `[0, total]`, merge under-minimum intervals, round bounds to
one decimal. -/
def smartScenes (times : List ℚ) (total : ℚ) : List Scene :=
  (mergeLoop (mkIntervals total (rawSceneTimes times))).map
    fun s => ⟨round1 s.start, round1 s.tEnd⟩

/-!
## Translator fallback (`generateAllCountries`, step 1 and the ASS loop)

The parsed translation response is an array of language-code-keyed objects;
`translations[i]?.[lang] || t.text` selects the burned-in text.  A parse
failure leaves `translations = []`.
-/

/-- `translations[i]?.[lang]`: index into the parsed array, then look the
language code up in the object. -/
def lookupTranslation (translations : List (List (String × Str))) (i : Nat)
    (lang : String) : Option Str :=
  (translations[i]?).bind fun m => m.lookup lang

/-- `const translatedText = translations[i]?.[lang]; let text = translatedText || t.text;`
(`||` also falls back on an empty translated string, which is falsy). -/
def resolvedText (translations : List (List (String × Str))) (i : Nat)
    (lang : String) (src : Str) : Str :=
  match lookupTranslation translations i lang with
  | some s => if s = [] then src else s
  | none => src

/-!
## Job Coordinator state machine

Job statuses of the localization pipelines.  The status assignments in the
source are:
* `/api/localize` (v1): created `analyzing`; `analyzing → translating →
  generating → done`; the driver's `catch` sets `error`.
* `/api/localizer/generate` (v2): created `translating`;
  `translating → cancelled` (post-translation check),
  `translating → generating`, `generating → cancelled` (per-language check),
  `generating → done`; the driver's `catch` sets `error`.
The cancel endpoint only sets the `cancelled` flag; no assignment leaves
`done`, `error` or `cancelled`.
-/

/-- The status vocabulary of the spec's job state machine. -/
inductive JobStatus where
  | queued | analyzing | translating | generating | done | error | cancelled
deriving DecidableEq, Repr, Fintype

/-- Position of a status along `queued → analyzing → translating →
generating → done`, with the two terminal outcomes above everything. -/
def statusRank : JobStatus → Nat
  | .queued => 0
  | .analyzing => 1
  | .translating => 2
  | .generating => 3
  | .done => 4
  | .error => 5
  | .cancelled => 5

/-- The transition relation realized by the status assignments of the two
localization pipelines (see the section comment for the assignment sites). -/
def localizerStep : JobStatus → JobStatus → Bool
  | .analyzing, .translating => true
  | .translating, .generating => true
  | .generating, .done => true
  | .translating, .cancelled => true
  | .generating, .cancelled => true
  | .analyzing, .error => true
  | .translating, .error => true
  | .generating, .error => true
  | _, _ => false

/-!
## Generation loop (`/api/localizer/generate` + `generateAllCountries`)
-/

/-- The seven supported country codes. -/
def ALL_COUNTRIES : List String := ["HR", "CZ", "PL", "GR", "IT", "HU", "SK"]

/-- `selectedCountries`: a non-empty provided array is filtered down to the
supported codes; anything else (absent, non-array — modelled as `none` — or
empty) defaults to all seven.  (`generateAllCountries` then uses
`job.countries || ALL`, and an empty JS array is truthy, so the possibly
empty filtered list is used as-is.) -/
def selectCountries (countries : Option (List String)) : List String :=
  match countries with
  | some cs => if cs ≠ [] then cs.filter (fun c => ALL_COUNTRIES.contains c) else ALL_COUNTRIES
  | none => ALL_COUNTRIES

/-- Observable outcome of one generation run: final status, `completed`
counter, and the per-language `outputs` map (modelled as the ordered list of
languages that received an output file). -/
structure GenResult where
  status : JobStatus
  completed : Nat
  outputs : List String
deriving DecidableEq, Repr

/-- The per-language loop of `generateAllCountries`: at each iteration the
cancelled flag is polled (`cancelledAt k` is its value at the `k`-th check);
a successful encode records the language's output and increments
`completed`; a failing encode throws, which the driver's `catch` turns into
status `error` — no per-language `try/catch` exists, so the remaining
languages are not processed. -/
def genLoop (encodeOk : String → Bool) (cancelledAt : Nat → Bool) :
    List String → Nat → Nat → List String → GenResult
  | [], _, completed, outputs => ⟨.done, completed, outputs⟩
  | lang :: rest, k, completed, outputs =>
    if cancelledAt k then ⟨.cancelled, completed, outputs⟩
    else if encodeOk lang then
      genLoop encodeOk cancelledAt rest (k + 1) (completed + 1) (outputs ++ [lang])
    else ⟨.error, completed, outputs⟩

/-- The post-translation part of `generateAllCountries`: one cancellation
check after translation, then the per-language loop. -/
def genRun (langs : List String) (encodeOk : String → Bool)
    (cancelledAt : Nat → Bool) : GenResult :=
  if cancelledAt 0 then ⟨.cancelled, 0, []⟩
  else genLoop encodeOk cancelledAt langs 1 0 []

/-!
## Delete handler (`DELETE /api/localizer/job/:id`)
-/

/-- The job fields consulted by the delete handler:
`job.namingParts?.author` (`none` models a missing `namingParts` or author). -/
structure LocJob where
  author : Option Str
deriving DecidableEq, Repr

/-- The state touched by the delete handler: the `localizerJobs` map (an
association list keyed by job id) and the set of per-job output directories
`uploads/generated/<id>` (a job's directory is named by its id). -/
structure LocStore where
  jobs : List (String × LocJob)
  outputDirs : List String
deriving DecidableEq, Repr

/-- Outcome of the delete request (404 / 403 / 200). -/
inductive DeleteResult where
  | notFound | forbidden | success
deriving DecidableEq, Repr

/-- `jobAuthor = job.namingParts?.author?.toUpperCase() || ''`. -/
def jobAuthorOf (job : LocJob) : Str := (job.author.getD []).map toUpperCP

/-- `requestAuthor = (author || '').toUpperCase()`. -/
def requestAuthorOf (author : Option Str) : Str := (author.getD []).map toUpperCP

/-- The delete handler: 404 when the id is unknown; 403 (state unchanged)
only when BOTH upper-cased authors are non-empty and differ; otherwise the
job's output directory and its record are removed. -/
def deleteJob (st : LocStore) (id : String) (author : Option Str) :
    DeleteResult × LocStore :=
  match st.jobs.lookup id with
  | none => (.notFound, st)
  | some job =>
    if jobAuthorOf job ≠ [] ∧ requestAuthorOf author ≠ [] ∧
        jobAuthorOf job ≠ requestAuthorOf author then
      (.forbidden, st)
    else
      (.success,
       ⟨st.jobs.filter (fun p => !(p.1 == id)), st.outputDirs.filter (fun d => !(d == id))⟩)

/-!
## Concrete inputs used in the claim scenarios
-/

/-- The detection text of the spec's end-to-end scenario. -/
def saleStr : Str := ofString "SALE"

/-- Two detections of `"SALE"` separated by `k` frame intervals: one at
timestamp `0`, one at timestamp `k * 0.5`, with no detection in between and
one further (empty) sampled frame after the second detection. -/
def pairFrames (k : Nat) : List (List Str) :=
  [saleStr] :: (List.replicate (k - 1) [] ++ [[saleStr]] ++ [[]])

/-- The spec's three-detection scenario: `"SALE"` at `t = 0.0`, `0.5` and
`2.5`, sampled at 2 fps up to `t = 2.5` (six frames). -/
def scenarioFrames : List (List Str) :=
  [[saleStr], [saleStr], [], [], [], [saleStr]]

/-!
## Theorems

### C2 — Translation fallback
-/

/-- **C2** (confirmed).  For every segment index `i` and requested language
`L`: if the parsed translation response has no entry for `(i, L)` — in
particular whenever the whole response failed to parse, leaving
`translations = []` — the text selected for burning into language `L`'s
output for segment `i` is the segment's original source text verbatim; and
the selected text for any pair depends only on that pair's own entry, so no
other segment/language pair is affected. -/
theorem C2_translation_fallback :
    (∀ (tr : List (List (String × Str))) (i : Nat) (lang : String) (src : Str),
        lookupTranslation tr i lang = none → resolvedText tr i lang src = src) ∧
    (∀ (tr tr' : List (List (String × Str))) (i : Nat) (lang : String) (src : Str),
        lookupTranslation tr i lang = lookupTranslation tr' i lang →
          resolvedText tr i lang src = resolvedText tr' i lang src) ∧
    (∀ (i : Nat) (lang : String) (src : Str), resolvedText [] i lang src = src) := by
  refine ⟨fun tr i lang src h => ?_, fun tr tr' i lang src h => ?_, fun i lang src => ?_⟩
  · simp [resolvedText, h]
  · simp [resolvedText, h]
  · simp [resolvedText, lookupTranslation]

/-- Witness for C2: the missing pair `(0, IT)` renders the source text. -/
theorem C2_witness : resolvedText [] 0 "IT" saleStr = saleStr :=
  C2_translation_fallback.1 [] 0 "IT" saleStr rfl

/-!
### C3 — Job status monotonicity
-/

/-- A chain of strict rank increases is pairwise strict. -/
theorem chain_rank_lt_pairwise {l : List JobStatus}
    (h : List.Chain' (fun a b => statusRank a < statusRank b) l) :
    List.Pairwise (fun a b => statusRank a < statusRank b) l := by
  induction l with
  | nil => exact List.Pairwise.nil
  | cons a t ih =>
    cases t with
    | nil => simp
    | cons b u =>
      rw [List.chain'_cons] at h
      have hp := ih h.2
      refine List.Pairwise.cons (fun y hy => ?_) hp
      rcases List.mem_cons.mp hy with rfl | hy
      · exact h.1
      · exact h.1.trans ((List.pairwise_cons.mp hp).1 y hy)

/-- **C3** (confirmed).  Every status transition performed by the
localization pipelines strictly advances the job along
`queued, analyzing, translating, generating, done` (with `error`/`cancelled`
ranked last); hence along any run of the pipeline the observed statuses are
pairwise strictly increasing — the sequence is a subsequence of the forward
chain or ends early in a terminal state, and never reverts — and no
transition leaves `done`, `error` or `cancelled`. -/
theorem C3_status_monotonicity :
    (∀ s s', localizerStep s s' = true → statusRank s < statusRank s') ∧
    (∀ l : List JobStatus, List.Chain' (fun a b => localizerStep a b = true) l →
        List.Pairwise (fun a b => statusRank a < statusRank b) l) ∧
    (∀ s, localizerStep JobStatus.done s = false) ∧
    (∀ s, localizerStep JobStatus.error s = false) ∧
    (∀ s, localizerStep JobStatus.cancelled s = false) := by
  have hstep : ∀ s s', localizerStep s s' = true → statusRank s < statusRank s' := by
    decide
  exact ⟨hstep, fun l hl => chain_rank_lt_pairwise (hl.imp fun a b h => hstep a b h),
    by decide, by decide, by decide⟩

/-- Witness for C3: the normal v2 run `translating → generating → done` is
strictly increasing. -/
theorem C3_witness :
    List.Pairwise (fun a b => statusRank a < statusRank b)
      [JobStatus.translating, JobStatus.generating, JobStatus.done] :=
  C3_status_monotonicity.2.1 _
    (by simp [List.chain'_cons, List.chain'_singleton, localizerStep])

/-!
### C4 — Per-language encode failure
-/

/-- **C4 counterexample** (the claim as stated is false).  With two selected
languages and the first language's encode exiting non-zero, the job ends in
status `error` with an empty outputs map: the first language is not "marked
failed in the job state", and the second language is never processed — the
whole job aborts on the first encode failure (there is no per-language
`try/catch`; the driver's `catch` sets `job.status = 'error'`). -/
theorem C4_counterexample :
    genRun ["HR", "CZ"] (fun l => !(l == "HR")) (fun _ => false) =
      ⟨JobStatus.error, 0, []⟩ := by decide

/-- All-successful prefix, then a failing encode: the loop records exactly
the prefix and stops with status `error`. -/
theorem genLoop_fail_after (lang : String) (rest : List String)
    (encodeOk : String → Bool) (h2 : encodeOk lang = false) :
    ∀ (pre : List String) (k completed : Nat) (outputs : List String),
      (∀ l ∈ pre, encodeOk l = true) →
      genLoop encodeOk (fun _ => false) (pre ++ lang :: rest) k completed outputs =
        ⟨JobStatus.error, completed + pre.length, outputs ++ pre⟩ := by
  intro pre
  induction pre with
  | nil => intro k completed outputs _; simp [genLoop, h2]
  | cons p ps ih =>
    intro k completed outputs h1
    have hp : encodeOk p = true := h1 p (List.mem_cons_self p ps)
    have hps : ∀ l ∈ ps, encodeOk l = true := fun l hl => h1 l (List.mem_cons_of_mem p hl)
    have step : genLoop encodeOk (fun _ => false) ((p :: ps) ++ lang :: rest) k completed
          outputs =
        genLoop encodeOk (fun _ => false) (ps ++ lang :: rest) (k + 1) (completed + 1)
          (outputs ++ [p]) := by
      simp [genLoop, hp]
    rw [step, ih (k + 1) (completed + 1) (outputs ++ [p]) hps]
    have e1 : completed + 1 + ps.length = completed + (p :: ps).length := by
      simp [List.length_cons]; omega
    have e2 : (outputs ++ [p]) ++ ps = outputs ++ p :: ps := by simp
    rw [e1, e2]

/-- **C4 amended** (as the counterexample forces).  During the generating
phase, if the encode invocation for one language exits non-zero then the
exception propagates out of the per-language loop: the languages before it
are completed normally, the failing language receives no output entry, the
remaining languages are not processed at all, and the job finishes in status
`error` (not `done`). -/
theorem C4_amended (pre : List String) (lang : String) (rest : List String)
    (encodeOk : String → Bool) (h1 : ∀ l ∈ pre, encodeOk l = true)
    (h2 : encodeOk lang = false) :
    genRun (pre ++ lang :: rest) encodeOk (fun _ => false) =
      ⟨JobStatus.error, pre.length, pre⟩ := by
  have := genLoop_fail_after lang rest encodeOk h2 pre 1 0 [] h1
  simpa [genRun] using this

/-- Witness for C4: languages `[HR, CZ, PL]` with `CZ` failing give status
`error`, one completed language and outputs `[HR]`. -/
theorem C4_amended_witness :
    genRun (["HR"] ++ "CZ" :: ["PL"]) (fun l => !(l == "CZ")) (fun _ => false) =
      ⟨JobStatus.error, ["HR"].length, ["HR"]⟩ :=
  C4_amended ["HR"] "CZ" ["PL"] (fun l => !(l == "CZ")) (by decide) (by decide)

/-!
### C7 — Scene splitter scenario
-/

/-- **C7 counterexample** (the claim as stated is false).  On the cut list
`[0, 0.2, 0.4, 5.0, 9.0]` the coalescing pass keeps `0.4`: the gap of a
candidate is measured from the previously *kept* cut (here `0`), and
`0.4 - 0 ≥ 0.3`, so the raw cuts are `[0, 0.4, 5.0, 9.0]`, not the claimed
`[0, 5.0, 9.0]`. -/
theorem C7_counterexample :
    rawSceneTimes [0, 1/5, 2/5, 5, 9] = [0, 2/5, 5, 9] ∧
    rawSceneTimes [0, 1/5, 2/5, 5, 9] ≠ [0, 5, 9] := by
  with_unfolding_all decide

/-- **C7 amended** (as the counterexample forces).  For scene cuts
`[0, 0.2, 0.4, 5.0, 9.0]` on a 10-second video: coalescing keeps `0.4`
(its gap from the last kept cut `0` is `0.4 ≥ 0.3`) giving raw cuts
`[0, 0.4, 5.0, 9.0]` and raw intervals
`[0–0.4, 0.4–5.0, 5.0–9.0, 9.0–10.0]`; the minimum-duration pass merges the
0.4-second first interval into its next neighbour (and the final 1.0-second
interval, exactly at threshold, is not merged), so the final output scenes
are `[0–5.0, 5.0–9.0, 9.0–10.0]` as the claim states. -/
theorem C7_amended :
    rawSceneTimes [0, 1/5, 2/5, 5, 9] = [0, 2/5, 5, 9] ∧
    mkIntervals 10 [0, 2/5, 5, 9] = [⟨0, 2/5⟩, ⟨2/5, 5⟩, ⟨5, 9⟩, ⟨9, 10⟩] ∧
    mergeLoop [⟨0, 2/5⟩, ⟨2/5, 5⟩, ⟨5, 9⟩, ⟨9, 10⟩] = [⟨0, 5⟩, ⟨5, 9⟩, ⟨9, 10⟩] ∧
    smartScenes [0, 1/5, 2/5, 5, 9] 10 = [⟨0, 5⟩, ⟨5, 9⟩, ⟨9, 10⟩] := by
  with_unfolding_all decide

/-!
### C9 — Delete authorization
-/

/-- **C9 counterexample** (the claim as stated is false).  A job whose
recorded author is `"ALICE"` is deleted — record and output directory
removed — by a caller supplying the empty author `""`, which does not match
`"ALICE"` case-insensitively: the author check is skipped whenever either
side is empty. -/
theorem C9_counterexample :
    deleteJob ⟨[("j1", ⟨some (ofString "ALICE")⟩)], ["j1"]⟩ "j1" (some []) =
      (DeleteResult.success, ⟨[], []⟩) ∧
    requestAuthorOf (some []) ≠ jobAuthorOf ⟨some (ofString "ALICE")⟩ := by decide

/-- Removing the deleted key empties its lookups. -/
theorem lookup_filterOut_self (l : List (String × LocJob)) (id : String) :
    (l.filter (fun p => !(p.1 == id))).lookup id = none := by
  induction l with
  | nil => rfl
  | cons p t ih =>
    obtain ⟨k, v⟩ := p
    by_cases h : k = id
    · simpa [List.filter_cons, h] using ih
    · have hne : (id == k) = false := beq_eq_false_iff_ne.mpr fun e => h e.symm
      have hkk : (k == id) = false := beq_eq_false_iff_ne.mpr h
      simpa [List.filter_cons, hkk, List.lookup, hne] using ih

/-- Other keys are unaffected by removing the deleted key. -/
theorem lookup_filterOut_other (l : List (String × LocJob)) (id id' : String)
    (h : id' ≠ id) :
    (l.filter (fun p => !(p.1 == id))).lookup id' = l.lookup id' := by
  induction l with
  | nil => rfl
  | cons p t ih =>
    obtain ⟨k, v⟩ := p
    by_cases hp : k = id
    · subst hp
      have hne : (id' == k) = false := beq_eq_false_iff_ne.mpr h
      simp [List.filter_cons, List.lookup, hne, ih]
    · have hkk : (k == id) = false := beq_eq_false_iff_ne.mpr hp
      by_cases hq : id' = k
      · subst hq
        simp [List.filter_cons, hkk, List.lookup]
      · have hne : (id' == k) = false := beq_eq_false_iff_ne.mpr hq
        simp [List.filter_cons, hkk, List.lookup, hne, ih]

/-- **C9 amended** (as the counterexample forces).  The delete operation is
refused (HTTP 403, state unchanged) only when *both* the job's recorded
author and the caller-supplied author are non-empty and differ after
upper-casing; in every other case — matching authors, *or either side
empty* — it succeeds, removing the job record and the job's output
directory and leaving every other job record unchanged. -/
theorem C9_amended (st : LocStore) (id : String) (author : Option Str)
    (job : LocJob) (hlook : st.jobs.lookup id = some job) :
    (jobAuthorOf job ≠ [] → requestAuthorOf author ≠ [] →
        jobAuthorOf job ≠ requestAuthorOf author →
        deleteJob st id author = (DeleteResult.forbidden, st)) ∧
    ((jobAuthorOf job = [] ∨ requestAuthorOf author = [] ∨
        jobAuthorOf job = requestAuthorOf author) →
      (deleteJob st id author).1 = DeleteResult.success ∧
      (deleteJob st id author).2.jobs.lookup id = none ∧
      id ∉ (deleteJob st id author).2.outputDirs ∧
      ∀ id', id' ≠ id →
        (deleteJob st id author).2.jobs.lookup id' = st.jobs.lookup id') := by
  constructor
  · intro h1 h2 h3
    simp [deleteJob, hlook, h1, h2, h3]
  · intro h
    have hcond : ¬(jobAuthorOf job ≠ [] ∧ requestAuthorOf author ≠ [] ∧
        jobAuthorOf job ≠ requestAuthorOf author) := by
      rcases h with h | h | h <;> simp [h]
    refine ⟨?_, ?_, ?_, ?_⟩
    · simp [deleteJob, hlook, hcond]
    · simp only [deleteJob, hlook, if_neg hcond]
      exact lookup_filterOut_self st.jobs id
    · simp [deleteJob, hlook, hcond]
    · intro id' hid
      simp only [deleteJob, hlook, if_neg hcond]
      exact lookup_filterOut_other st.jobs id id' hid

/-- Witness for C9: a non-empty, genuinely different caller (`"BOB"` vs
recorded `"ALICE"`) is refused with the state unchanged. -/
theorem C9_amended_witness :
    deleteJob ⟨[("j1", ⟨some (ofString "ALICE")⟩)], ["j1"]⟩ "j1"
        (some (ofString "bob")) =
      (DeleteResult.forbidden, ⟨[("j1", ⟨some (ofString "ALICE")⟩)], ["j1"]⟩) :=
  (C9_amended ⟨[("j1", ⟨some (ofString "ALICE")⟩)], ["j1"]⟩ "j1"
      (some (ofString "bob")) ⟨some (ofString "ALICE")⟩ rfl).1
    (by decide) (by decide) (by decide)

/-!
### C10 — Countries invariant
-/

/-- **C10** (confirmed).  Every job's countries list is a subset of the
seven supported codes; an absent or empty countries input defaults to all
seven; a non-empty input is filtered, silently dropping unsupported codes;
and with an empty effective countries list the generation loop performs
zero language iterations and finishes in status `done` with an empty
outputs map. -/
theorem C10_countries :
    (∀ (copt : Option (List String)), ∀ c ∈ selectCountries copt, c ∈ ALL_COUNTRIES) ∧
    (selectCountries none = ALL_COUNTRIES ∧ selectCountries (some []) = ALL_COUNTRIES) ∧
    (∀ cs : List String, cs ≠ [] →
        selectCountries (some cs) = cs.filter (fun c => ALL_COUNTRIES.contains c)) ∧
    (∀ (encodeOk : String → Bool) (cancelledAt : Nat → Bool), cancelledAt 0 = false →
        genRun [] encodeOk cancelledAt = ⟨JobStatus.done, 0, []⟩) := by
  refine ⟨fun copt c hc => ?_, ⟨rfl, rfl⟩, fun cs h => ?_, fun encodeOk cancelledAt h => ?_⟩
  · match copt with
    | none => exact hc
    | some cs =>
      by_cases hcs : cs = []
      · subst hcs; exact hc
      · simp only [selectCountries, if_pos hcs] at hc
        have := (List.mem_filter.mp hc).2
        simpa [List.contains_iff_exists_mem_beq, beq_iff_eq] using this
  · simp [selectCountries, h]
  · simp [genRun, genLoop, h]

/-- Witness for C10: the unsupported-only input `["XX"]` yields an empty
countries list, and the empty list finishes immediately in `done` with no
outputs. -/
theorem C10_witness :
    selectCountries (some ["XX"]) = ["XX"].filter (fun c => ALL_COUNTRIES.contains c) ∧
    genRun [] (fun _ => true) (fun _ => false) = ⟨JobStatus.done, 0, []⟩ :=
  ⟨C10_countries.2.2.1 ["XX"] (by decide), C10_countries.2.2.2 _ _ rfl⟩

/-!
### C5 — Normalization: character-class lemmas
-/

/-- Every case branch of `toLowerCP` concerns a code point below `0x400`;
above that it is the identity. -/
theorem toLowerCP_eq_self_of_big (c : Nat) (h : 0x400 ≤ c) : toLowerCP c = c := by
  unfold toLowerCP
  repeat rw [if_neg (by omega)]

set_option maxRecDepth 100000 in
/-- Exhaustive check of the lower-casing facts over the branch domain. -/
theorem toLowerCP_bounded_facts :
    ∀ x < 0x400, toLowerCP (toLowerCP x) = toLowerCP x ∧
      isSpaceCP (toLowerCP x) = isSpaceCP x ∧
      (isSpaceCP x = true → toLowerCP x = x) ∧
      (keepCP x = true → keepCP (toLowerCP x) = true) ∧
      isEmojiMain (toLowerCP x) = false := by decide

/-- Lower-casing fixes whitespace characters. -/
theorem toLowerCP_space_fix (c : Nat) (h : isSpaceCP c = true) : toLowerCP c = c := by
  by_cases hc : c < 0x400
  · exact (toLowerCP_bounded_facts c hc).2.2.1 h
  · exact toLowerCP_eq_self_of_big c (by omega)

/-- Lower-casing preserves whitespace classification. -/
theorem isSpaceCP_toLowerCP (c : Nat) : isSpaceCP (toLowerCP c) = isSpaceCP c := by
  by_cases hc : c < 0x400
  · exact (toLowerCP_bounded_facts c hc).2.1
  · rw [toLowerCP_eq_self_of_big c (by omega)]

/-- Lower-casing is idempotent on code points. -/
theorem toLowerCP_idem (c : Nat) : toLowerCP (toLowerCP c) = toLowerCP c := by
  by_cases hc : c < 0x400
  · exact (toLowerCP_bounded_facts c hc).1
  · rw [toLowerCP_eq_self_of_big c (by omega), toLowerCP_eq_self_of_big c (by omega)]

/-- Lower-casing keeps kept characters (letters/digits/whitespace) kept. -/
theorem keepCP_toLowerCP (c : Nat) (h : keepCP c = true) : keepCP (toLowerCP c) = true := by
  by_cases hc : c < 0x400
  · exact (toLowerCP_bounded_facts c hc).2.2.2.1 h
  · rw [toLowerCP_eq_self_of_big c (by omega)]
    exact h

/-- Lower-casing of a kept character never lands in the stripped emoji range. -/
theorem isEmojiMain_toLowerCP (c : Nat) (h : keepCP c = true) :
    isEmojiMain (toLowerCP c) = false := by
  by_cases hc : c < 0x400
  · exact (toLowerCP_bounded_facts c hc).2.2.2.2
  · rw [toLowerCP_eq_self_of_big c (by omega)]
    simp only [keepCP, isLetterCP, isNumCP, isSpaceCP, Bool.or_eq_true,
      decide_eq_true_eq] at h
    simp only [isEmojiMain, decide_eq_false_iff_not]
    omega

/-!
### C5 — Normalization: trim and collapse lemmas
-/

/-- `jsTrim` only removes characters. -/
theorem mem_jsTrim {c : Nat} {s : Str} (h : c ∈ jsTrim s) : c ∈ s := by
  unfold jsTrim at h
  rw [List.mem_reverse] at h
  have h1 := List.dropWhile_subset isSpaceCP h
  rw [List.mem_reverse] at h1
  exact List.dropWhile_subset isSpaceCP h1

/-- `dropWhile` is idempotent. -/
theorem dropWhile_idem (p : Nat → Bool) (l : Str) :
    (l.dropWhile p).dropWhile p = l.dropWhile p := by
  induction l with
  | nil => rfl
  | cons a t ih =>
    by_cases h : p a = true
    · simp [List.dropWhile_cons, h, ih]
    · simp [List.dropWhile_cons, h]

/-- `dropWhile` is the identity when the head (if any) fails the predicate. -/
theorem dropWhile_eq_self_of_head (p : Nat → Bool) (l : Str)
    (h : ∀ a, l.head? = some a → p a = false) : l.dropWhile p = l := by
  cases l with
  | nil => rfl
  | cons a t => simp [List.dropWhile_cons, h a rfl]

/-- `dropWhile` keeps the last element when the result is nonempty. -/
theorem getLast?_dropWhile (p : Nat → Bool) (l : Str) (h : l.dropWhile p ≠ []) :
    (l.dropWhile p).getLast? = l.getLast? := by
  induction l with
  | nil => simp at h
  | cons a t ih =>
    by_cases hp : p a = true
    · rw [List.dropWhile_cons_of_pos hp] at h ⊢
      rw [ih h]
      have ht : t ≠ [] := by
        intro e
        rw [e] at h
        exact h rfl
      cases t with
      | nil => exact absurd rfl ht
      | cons b u => simp [List.getLast?_cons_cons]
    · rw [List.dropWhile_cons_of_neg (by simp [hp])]

/-- `jsTrim` is idempotent. -/
theorem jsTrim_idem (s : Str) : jsTrim (jsTrim s) = jsTrim s := by
  have hA : (jsTrim s).dropWhile isSpaceCP = jsTrim s := by
    apply dropWhile_eq_self_of_head
    intro a ha
    unfold jsTrim at ha
    rw [List.head?_reverse] at ha
    have hwne : (s.dropWhile isSpaceCP).reverse.dropWhile isSpaceCP ≠ [] := by
      intro e
      rw [e] at ha
      simp at ha
    have h1 := getLast?_dropWhile isSpaceCP (s.dropWhile isSpaceCP).reverse hwne
    rw [List.getLast?_reverse] at h1
    have h2 : (s.dropWhile isSpaceCP).head? = some a := by
      rw [← h1]
      exact ha
    have h3 := List.head?_dropWhile_not isSpaceCP s
    rw [h2] at h3
    exact h3
  show (((jsTrim s).dropWhile isSpaceCP).reverse.dropWhile isSpaceCP).reverse = jsTrim s
  rw [hA]
  conv_lhs =>
    rw [show (jsTrim s).reverse = (s.dropWhile isSpaceCP).reverse.dropWhile isSpaceCP from by
      unfold jsTrim; rw [List.reverse_reverse]]
  rw [dropWhile_idem]
  unfold jsTrim
  rfl

/-- `jsTrim` empties a string iff it is all whitespace. -/
theorem jsTrim_eq_nil_iff (s : Str) :
    jsTrim s = [] ↔ ∀ c ∈ s, isSpaceCP c = true := by
  unfold jsTrim
  rw [List.reverse_eq_nil_iff, List.dropWhile_eq_nil_iff]
  constructor
  · intro h c hc
    have hc' : c ∈ s.takeWhile isSpaceCP ++ s.dropWhile isSpaceCP := by
      rw [List.takeWhile_append_dropWhile]
      exact hc
    rcases List.mem_append.mp hc' with h1 | h1
    · exact List.mem_takeWhile_imp h1
    · exact h c (List.mem_reverse.mpr h1)
  · intro h x hx
    exact h x (List.dropWhile_subset _ (List.mem_reverse.mp hx))

/-- `normalizedText` is idempotent. -/
theorem normalizedText_idem (s : Str) :
    normalizedText (normalizedText s) = normalizedText s := by
  unfold normalizedText
  have hfix : (jsTrim (s.filter fun c => !isStrippedRange c)).filter
      (fun c => !isStrippedRange c) = jsTrim (s.filter fun c => !isStrippedRange c) := by
    rw [List.filter_eq_self]
    intro a ha
    exact (List.mem_filter.mp (mem_jsTrim ha)).2
  rw [hfix, jsTrim_idem]

/-- `normalizedText` yields the empty string exactly when every input
character is in a stripped range or is whitespace. -/
theorem normalizedText_eq_nil_iff (s : Str) :
    normalizedText s = [] ↔ ∀ c ∈ s, (isStrippedRange c || isSpaceCP c) = true := by
  unfold normalizedText
  rw [jsTrim_eq_nil_iff]
  constructor
  · intro h c hc
    by_cases hs : isStrippedRange c = true
    · simp [hs]
    · have hcf : c ∈ s.filter (fun c => !isStrippedRange c) :=
        List.mem_filter.mpr ⟨hc, by simp [hs]⟩
      simp [h c hcf]
  · intro h a ha
    rcases List.mem_filter.mp ha with ⟨has, hns⟩
    have h1 := h a has
    simp only [Bool.or_eq_true] at h1
    rcases h1 with h1 | h1
    · simp [h1] at hns
    · exact h1

/-- The head of a collapsed string starting with a non-space is that
character. -/
theorem collapseWs_head_of_nonspace (c : Nat) (r : Str) (h : isSpaceCP c = false) :
    (collapseWs (c :: r)).head? = some c := by
  cases r with
  | nil => simp [collapseWs, h]
  | cons d t => simp [collapseWs, h]

/-- `collapseWs` produces a collapsed-whitespace string. -/
theorem normSpaces_collapseWs : ∀ l : Str, NormSpaces (collapseWs l)
  | [] => ⟨by simp [collapseWs], by simp [collapseWs]⟩
  | [c] => by
    by_cases h : isSpaceCP c = true
    · exact ⟨by simp [collapseWs, h], by simp [collapseWs, h]⟩
    · refine ⟨?_, ?_⟩
      · intro x hx hxs
        rw [show collapseWs [c] = [c] from by simp [collapseWs, h]] at hx
        rcases List.mem_singleton.mp hx with rfl
        exact absurd hxs (by simp [h])
      · rw [show collapseWs [c] = [c] from by simp [collapseWs, h]]
        simp
  | c₁ :: c₂ :: rest => by
    have ih := normSpaces_collapseWs (c₂ :: rest)
    by_cases h : (isSpaceCP c₁ && isSpaceCP c₂) = true
    · rw [show collapseWs (c₁ :: c₂ :: rest) = collapseWs (c₂ :: rest) from by
        simp [collapseWs, h]]
      exact ih
    · rw [show collapseWs (c₁ :: c₂ :: rest) =
          (if isSpaceCP c₁ then 0x20 else c₁) :: collapseWs (c₂ :: rest) from by
        simp [collapseWs, h]]
      constructor
      · intro x hx hxs
        rcases List.mem_cons.mp hx with rfl | hx
        · by_cases h1 : isSpaceCP c₁ = true
          · simp [h1]
          · rw [if_neg h1] at hxs ⊢
            exact absurd hxs (by simp [h1])
        · exact ih.1 x hx hxs
      · rw [List.chain'_cons']
        refine ⟨?_, ih.2⟩
        intro y hy
        by_cases h1 : isSpaceCP c₁ = true
        · have h2 : isSpaceCP c₂ = false := by
            cases hc2 : isSpaceCP c₂
            · rfl
            · exact absurd (by simp [h1, hc2]) h
          rw [collapseWs_head_of_nonspace c₂ rest h2] at hy
          simp only [Option.mem_def, Option.some.injEq] at hy
          subst hy
          exact Or.inr h2
        · exact Or.inl (by simp [h1])

/-- A collapsed-whitespace string is a fixed point of `collapseWs`. -/
theorem collapseWs_eq_self : ∀ l : Str, NormSpaces l → collapseWs l = l
  | [], _ => rfl
  | [c], h => by
    by_cases hs : isSpaceCP c = true
    · have h32 := h.1 c (by simp) hs
      simp [collapseWs, hs, h32]
    · simp [collapseWs, hs]
  | c₁ :: c₂ :: rest, h => by
    have hch := h.2
    rw [List.chain'_cons] at hch
    have hcc : (isSpaceCP c₁ && isSpaceCP c₂) = false := by
      rcases hch.1 with h1 | h1 <;> simp [h1]
    have ih := collapseWs_eq_self (c₂ :: rest)
      ⟨fun c hc hs => h.1 c (List.mem_cons_of_mem _ hc) hs, hch.2⟩
    rw [show collapseWs (c₁ :: c₂ :: rest) =
        (if isSpaceCP c₁ then 0x20 else c₁) :: collapseWs (c₂ :: rest) from by
      simp [collapseWs, hcc]]
    rw [ih]
    by_cases hs : isSpaceCP c₁ = true
    · rw [if_pos hs, h.1 c₁ (by simp) hs]
    · rw [if_neg hs]

/-- Every character of a collapsed string is a space or came from the
input. -/
theorem mem_collapseWs : ∀ (l : Str) (x : Nat), x ∈ collapseWs l → x = 0x20 ∨ x ∈ l
  | [], x, h => by simp [collapseWs] at h
  | [c], x, h => by
    by_cases hs : isSpaceCP c = true
    · simp [collapseWs, hs] at h
      exact Or.inl h
    · simp [collapseWs, hs] at h
      exact Or.inr (by simp [h])
  | c₁ :: c₂ :: rest, x, h => by
    by_cases hcc : (isSpaceCP c₁ && isSpaceCP c₂) = true
    · rw [show collapseWs (c₁ :: c₂ :: rest) = collapseWs (c₂ :: rest) from by
        simp [collapseWs, hcc]] at h
      rcases mem_collapseWs (c₂ :: rest) x h with h1 | h1
      · exact Or.inl h1
      · exact Or.inr (List.mem_cons_of_mem _ h1)
    · rw [show collapseWs (c₁ :: c₂ :: rest) =
          (if isSpaceCP c₁ then 0x20 else c₁) :: collapseWs (c₂ :: rest) from by
        simp [collapseWs, hcc]] at h
      rcases List.mem_cons.mp h with h1 | h1
      · by_cases hs : isSpaceCP c₁ = true
        · rw [if_pos hs] at h1
          exact Or.inl h1
        · rw [if_neg hs] at h1
          exact Or.inr (by simp [h1])
      · rcases mem_collapseWs (c₂ :: rest) x h1 with h2 | h2
        · exact Or.inl h2
        · exact Or.inr (List.mem_cons_of_mem _ h2)

/-- `Chain'` survives `dropWhile`. -/
theorem chain'_dropWhile {R : Nat → Nat → Prop} (p : Nat → Bool) :
    ∀ l : Str, List.Chain' R l → List.Chain' R (l.dropWhile p)
  | [], h => h
  | a :: t, h => by
    by_cases hp : p a = true
    · rw [List.dropWhile_cons_of_pos hp]
      exact chain'_dropWhile p t h.tail
    · rwa [List.dropWhile_cons_of_neg (by simp [hp])]

/-- Collapsedness survives `dropWhile`. -/
theorem normSpaces_dropWhile (p : Nat → Bool) (l : Str) (h : NormSpaces l) :
    NormSpaces (l.dropWhile p) :=
  ⟨fun c hc hs => h.1 c (List.dropWhile_subset _ hc) hs, chain'_dropWhile p l h.2⟩

/-- Collapsedness survives reversal. -/
theorem normSpaces_reverse (l : Str) (h : NormSpaces l) : NormSpaces l.reverse := by
  refine ⟨fun c hc hs => h.1 c (List.mem_reverse.mp hc) hs, ?_⟩
  rw [List.chain'_reverse]
  exact h.2.imp fun a b hr => hr.symm

/-- Collapsedness survives `jsTrim`. -/
theorem normSpaces_jsTrim (l : Str) (h : NormSpaces l) : NormSpaces (jsTrim l) := by
  unfold jsTrim
  exact normSpaces_reverse _
    (normSpaces_dropWhile _ _ (normSpaces_reverse _ (normSpaces_dropWhile _ _ h)))

/-- Collapsedness survives lower-casing. -/
theorem normSpaces_map_toLower (l : Str) (h : NormSpaces l) :
    NormSpaces (l.map toLowerCP) := by
  constructor
  · intro c hc hs
    rcases List.mem_map.mp hc with ⟨a, ha, rfl⟩
    have hsa : isSpaceCP a = true := by
      rw [← isSpaceCP_toLowerCP]
      exact hs
    have h32 := h.1 a ha hsa
    subst h32
    exact toLowerCP_space_fix _ hsa
  · rw [List.chain'_map]
    refine h.2.imp fun a b hr => ?_
    rcases hr with h1 | h1
    · exact Or.inl (by rw [isSpaceCP_toLowerCP]; exact h1)
    · exact Or.inr (by rw [isSpaceCP_toLowerCP]; exact h1)

/-- `jsTrim` commutes with lower-casing. -/
theorem jsTrim_map_toLower (l : Str) :
    jsTrim (l.map toLowerCP) = (jsTrim l).map toLowerCP := by
  unfold jsTrim
  have hpf : (isSpaceCP ∘ toLowerCP) = isSpaceCP := funext fun c => isSpaceCP_toLowerCP c
  rw [List.dropWhile_map, hpf, ← List.map_reverse, List.dropWhile_map, hpf,
    ← List.map_reverse]

/-- Lower-casing a string twice equals lower-casing it once. -/
theorem map_toLowerCP_idem (l : Str) :
    (l.map toLowerCP).map toLowerCP = l.map toLowerCP := by
  rw [List.map_map]
  exact List.map_congr_left fun a _ => toLowerCP_idem a

/-- `stripForCompare` is idempotent. -/
theorem stripForCompare_idem (s : Str) :
    stripForCompare (stripForCompare s) = stripForCompare s := by
  have hmem : ∀ c ∈ stripForCompare s, keepCP c = true ∧ isEmojiMain c = false := by
    intro c hc
    unfold stripForCompare at hc
    rcases List.mem_map.mp hc with ⟨a, ha, rfl⟩
    have ha' := mem_jsTrim ha
    rcases mem_collapseWs _ a ha' with h32 | hmem2
    · subst h32
      exact ⟨keepCP_toLowerCP _ (by decide), isEmojiMain_toLowerCP _ (by decide)⟩
    · have hk := (List.mem_filter.mp hmem2).2
      exact ⟨keepCP_toLowerCP _ hk, isEmojiMain_toLowerCP _ hk⟩
  have hNS : NormSpaces (stripForCompare s) := by
    unfold stripForCompare
    exact normSpaces_map_toLower _ (normSpaces_jsTrim _ (normSpaces_collapseWs _))
  have hf1 : (stripForCompare s).filter (fun c => !isEmojiMain c) = stripForCompare s := by
    rw [List.filter_eq_self]
    intro a ha
    simp [(hmem a ha).2]
  have hf2 : (stripForCompare s).filter keepCP = stripForCompare s := by
    rw [List.filter_eq_self]
    intro a ha
    exact (hmem a ha).1
  show (jsTrim (collapseWs (((stripForCompare s).filter
      (fun c => !isEmojiMain c)).filter keepCP))).map toLowerCP = stripForCompare s
  rw [hf1, hf2, collapseWs_eq_self _ hNS]
  have hTrim : jsTrim (stripForCompare s) = stripForCompare s := by
    unfold stripForCompare
    rw [jsTrim_map_toLower, jsTrim_idem]
  rw [hTrim]
  unfold stripForCompare
  exact map_toLowerCP_idem _

/-!
### C5/C6 — Segment Builder invariant
-/

/-- The invariant is monotone in the frontier timestamp. -/
theorem entryInv_mono {b b' : ℚ} (h : b ≤ b') {e : TextEntry} (he : EntryInv b e) :
    EntryInv b' e :=
  ⟨he.1, he.2.1.trans (by linarith), he.2.2.1.trans h, he.2.2.2⟩

/-- Extending an open entry at the current timestamp keeps the invariant. -/
theorem extendFirst_inv (ts : ℚ) (nt : Str) :
    ∀ (texts l : List TextEntry), extendFirst ts nt texts = some l →
      (∀ e ∈ texts, EntryInv ts e) → ∀ e ∈ l, EntryInv ts e
  | [], _, h, _ => by simp [extendFirst] at h
  | x :: xs, l, h, hall => by
    rw [extendFirst] at h
    by_cases hm : entryMatches x nt = true
    · rw [if_pos hm] at h
      by_cases hg : ts - x.tEnd ≤ frameInterval
      · rw [if_pos hg] at h
        have hl : { x with tEnd := ts + frameInterval } :: xs = l := Option.some.inj h
        subst hl
        intro e he
        rcases List.mem_cons.mp he with rfl | he
        · have hx := hall x (by simp)
          refine ⟨?_, ?_, hx.2.2.1, hx.2.2.2⟩
          · have := hx.2.2.1
            simp only [frameInterval]
            linarith
          · simp only [frameInterval]
            linarith
        · exact hall e (by simp [he])
      · rw [if_neg hg] at h
        exact absurd h (by simp)
    · rw [if_neg hm] at h
      rcases Option.map_eq_some'.mp h with ⟨l', hl', rfl⟩
      intro e he
      rcases List.mem_cons.mp he with rfl | he
      · exact hall e (by simp)
      · exact extendFirst_inv ts nt xs l' hl'
          (fun e' he' => hall e' (by simp [he'])) e he

/-- Processing one detection keeps the invariant. -/
theorem processDetection_inv (ts : ℚ) (texts : List TextEntry) (raw : Str)
    (hall : ∀ e ∈ texts, EntryInv ts e) :
    ∀ e ∈ processDetection ts texts raw, EntryInv ts e := by
  intro e he
  unfold processDetection at he
  by_cases hnt : normalizedText raw = []
  · rw [if_pos hnt] at he
    exact hall e he
  · rw [if_neg hnt] at he
    rcases hex : extendFirst ts (normalizedText raw) texts with _ | l
    · rw [hex] at he
      simp only at he
      rcases List.mem_append.mp he with he | he
      · exact hall e he
      · rcases List.mem_singleton.mp he with rfl
        refine ⟨?_, le_refl _, le_refl _, hnt⟩
        simp only [frameInterval]
        linarith
    · rw [hex] at he
      exact extendFirst_inv ts _ texts l hex hall e he

/-- Processing all of a frame's detections keeps the invariant. -/
theorem foldl_processDetection_inv (ts : ℚ) :
    ∀ (dets : List Str) (texts : List TextEntry),
      (∀ e ∈ texts, EntryInv ts e) →
      ∀ e ∈ dets.foldl (processDetection ts) texts, EntryInv ts e
  | [], _, hall => hall
  | d :: ds, texts, hall =>
    foldl_processDetection_inv ts ds _ (processDetection_inv ts texts d hall)

/-- The close-on-absence pass keeps the invariant. -/
theorem closeAbsent_inv (ts : ℚ) (norms : List Str) (texts : List TextEntry)
    (hall : ∀ e ∈ texts, EntryInv ts e) :
    ∀ e ∈ closeAbsent ts norms texts, EntryInv ts e := by
  intro e he
  unfold closeAbsent at he
  rcases List.mem_map.mp he with ⟨t, ht, rfl⟩
  have hti := hall t ht
  by_cases hc : t.closed = false ∧ norms.contains (stripForCompare t.text) = false
      ∧ t.start < ts
  · rw [if_pos hc]
    exact ⟨hc.2.2, by linarith, hc.2.2.le, hti.2.2.2⟩
  · rw [if_neg hc]
    exact hti

/-- One frame advances the invariant frontier by one interval. -/
theorem processFrame_inv (ts : ℚ) (texts : List TextEntry) (dets : List Str)
    (hall : ∀ e ∈ texts, EntryInv (ts - 1/2) e) :
    ∀ e ∈ processFrame ts texts dets, EntryInv ts e := by
  unfold processFrame
  exact closeAbsent_inv ts _ _
    (foldl_processDetection_inv ts dets texts
      (fun e he => entryInv_mono (by linarith) (hall e he)))

/-- Running the frame loop from index `i` pushes the frontier to the last
processed frame's timestamp. -/
theorem runFrames_inv :
    ∀ (frames : List (List Str)) (i : Nat) (texts : List TextEntry),
      (∀ e ∈ texts, EntryInv ((i : ℚ) / 2 - 1/2) e) →
      ∀ e ∈ runFrames i texts frames,
        EntryInv (((i + frames.length : Nat) : ℚ) / 2 - 1/2) e
  | [], i, texts, hall => by
    simpa [runFrames] using hall
  | f :: rest, i, texts, hall => by
    rw [runFrames]
    intro e he
    have h2 : ∀ x ∈ processFrame ((i : ℚ) / 2) texts f,
        EntryInv (((i + 1 : Nat) : ℚ) / 2 - 1/2) x := by
      intro x hx
      have hq : ((i : ℚ) / 2) = ((i + 1 : Nat) : ℚ) / 2 - 1/2 := by
        push_cast
        ring
      rw [← hq]
      exact processFrame_inv _ _ _ hall x hx
    have h3 := runFrames_inv rest (i + 1) _ h2 e he
    have hq2 : (((i + 1 : Nat) + rest.length : Nat) : ℚ) / 2 - 1/2
        = ((i + (f :: rest).length : Nat) : ℚ) / 2 - 1/2 := by
      push_cast [List.length_cons]
      ring
    rw [← hq2]
    exact h3

/-- After the end-of-stream close, all entries have positive extent, end
within `n/2`, and nonempty text. -/
theorem closeAll_inv (texts : List TextEntry) (n : Nat)
    (hall : ∀ e ∈ texts, EntryInv ((n : ℚ) / 2 - 1/2) e) :
    ∀ e ∈ closeAll texts n,
      e.start < e.tEnd ∧ e.tEnd ≤ (n : ℚ) / 2 ∧ e.text ≠ [] := by
  intro e he
  unfold closeAll at he
  by_cases hn : n = 0
  · rw [if_pos hn] at he
    have h := hall e he
    subst hn
    refine ⟨h.1, ?_, h.2.2.2⟩
    have := h.2.1
    push_cast at this ⊢
    linarith
  · rw [if_neg hn] at he
    rcases List.mem_map.mp he with ⟨t, ht, rfl⟩
    have h := hall t ht
    by_cases hc : t.closed = true
    · rw [if_pos hc]
      exact ⟨h.1, by linarith [h.2.1], h.2.2.2⟩
    · rw [if_neg hc]
      refine ⟨?_, le_refl _, h.2.2.2⟩
      have := h.2.2.1
      linarith

/-- `insertByStart` inserts nothing new. -/
theorem mem_insertByStart (t : Seg) :
    ∀ (l : List Seg) (x : Seg), x ∈ insertByStart t l → x = t ∨ x ∈ l
  | [], x, h => by simpa [insertByStart] using h
  | m :: ms, x, h => by
    rw [insertByStart] at h
    by_cases hle : t.start ≤ m.start
    · rw [if_pos hle] at h
      rcases List.mem_cons.mp h with rfl | h
      · exact Or.inl rfl
      · exact Or.inr h
    · rw [if_neg hle] at h
      rcases List.mem_cons.mp h with rfl | h
      · exact Or.inr (by simp)
      · rcases mem_insertByStart t ms x h with h1 | h1
        · exact Or.inl h1
        · exact Or.inr (List.mem_cons_of_mem _ h1)

/-- Sorting permutes, so membership is preserved. -/
theorem mem_sortByStart : ∀ (l : List Seg) (x : Seg), x ∈ sortByStart l → x ∈ l
  | [], x, h => by simp [sortByStart] at h
  | a :: as, x, h => by
    rcases mem_insertByStart a (sortByStart as) x h with rfl | h1
    · exact List.mem_cons_self _ _
    · exact List.mem_cons_of_mem _ (mem_sortByStart as x h1)

/-- Merging two invariant-satisfying segments yields an invariant-satisfying
segment. -/
theorem mergeInto_inv (n : Nat) (t : Seg) :
    ∀ (acc l : List Seg), mergeInto t acc = some l →
      (∀ m ∈ acc, SegInv n m) → SegInv n t → ∀ m ∈ l, SegInv n m
  | [], _, h, _, _ => by simp [mergeInto] at h
  | m :: ms, l, h, hall, ht => by
    rw [mergeInto] at h
    by_cases hc : stripForCompare m.text = stripForCompare t.text ∧
        ((t.start ≤ m.tEnd ∧ m.start ≤ t.tEnd) ∨
          (0 < t.start - m.tEnd ∧ t.start - m.tEnd ≤ 1/2))
    · rw [if_pos hc] at h
      have hl := Option.some.inj h
      subst hl
      intro x hx
      have hm := hall m (by simp)
      rcases List.mem_cons.mp hx with rfl | hx
      · refine ⟨?_, ?_, hm.2.2⟩
        · calc min m.start t.start ≤ m.start := min_le_left _ _
            _ < m.tEnd := hm.1
            _ ≤ max m.tEnd t.tEnd := le_max_left _ _
        · exact max_le hm.2.1 ht.2.1
      · exact hall x (by simp [hx])
    · rw [if_neg hc] at h
      rcases Option.map_eq_some'.mp h with ⟨l', hl', rfl⟩
      intro x hx
      rcases List.mem_cons.mp hx with rfl | hx
      · exact hall x (by simp)
      · exact mergeInto_inv n t ms l' hl'
          (fun m' hm' => hall m' (by simp [hm'])) ht x hx

/-- The merge fold keeps the invariant. -/
theorem foldl_mergeStep_inv (n : Nat) :
    ∀ (l acc : List Seg), (∀ m ∈ acc, SegInv n m) → (∀ t ∈ l, SegInv n t) →
      ∀ m ∈ l.foldl mergeStep acc, SegInv n m
  | [], _, hacc, _ => hacc
  | t :: ts, acc, hacc, hl => by
    have ht := hl t (by simp)
    have hts : ∀ x ∈ ts, SegInv n x := fun x hx => hl x (by simp [hx])
    have hnext : ∀ m ∈ mergeStep acc t, SegInv n m := by
      unfold mergeStep
      rcases hmi : mergeInto t acc with _ | l'
      · intro m hm
        rcases List.mem_append.mp hm with hm | hm
        · exact hacc m hm
        · rcases List.mem_singleton.mp hm with rfl
          exact ht
      · exact mergeInto_inv n t acc l' hmi hacc ht
    exact foldl_mergeStep_inv n ts _ hnext hts

/-- Every segment the builder outputs has positive extent, ends within the
last frame's timestamp plus one interval, and has nonempty text. -/
theorem segmentBuilder_inv (frames : List (List Str)) :
    ∀ s ∈ segmentBuilder frames, SegInv frames.length s := by
  have h0 : ∀ e ∈ runFrames 0 [] frames,
      EntryInv ((frames.length : ℚ) / 2 - 1/2) e := by
    intro e he
    have h := runFrames_inv frames 0 [] (by intro e he; simp at he) e he
    have hq : (((0 : Nat) + frames.length : Nat) : ℚ) / 2 - 1/2
        = (frames.length : ℚ) / 2 - 1/2 := by
      push_cast
      ring
    rw [← hq]
    exact h
  have h1 := closeAll_inv _ frames.length h0
  have h2 : ∀ s ∈ ((closeAll (runFrames 0 [] frames) frames.length).filter
      (passesFilters frames.length)).map (fun e => (⟨e.text, e.start, e.tEnd⟩ : Seg)),
      SegInv frames.length s := by
    intro s hs
    rcases List.mem_map.mp hs with ⟨e, he, rfl⟩
    have h := h1 e (List.mem_of_mem_filter he)
    exact ⟨h.1, h.2.1, h.2.2⟩
  intro s hs
  unfold segmentBuilder at hs
  exact foldl_mergeStep_inv _ _ [] (by simp)
    (fun x hx => h2 x (mem_sortByStart _ x hx)) s hs

/-!
### C5 — the claim theorem
-/

/-- **C5** (confirmed).  The `normalizedText` normalization (strip the six
emoji/symbol ranges, trim) and the `stripForCompare` normalization (strip
emoji, keep letters/digits/whitespace, collapse whitespace, trim,
lower-case) are both idempotent; `normalizedText` yields the empty string
exactly when every input character is in a stripped range or is whitespace
(in which case the detection is discarded before entering the builder); and
consequently no segment the builder produces has empty text. -/
theorem C5_normalization :
    (∀ s : Str, normalizedText (normalizedText s) = normalizedText s) ∧
    (∀ s : Str, stripForCompare (stripForCompare s) = stripForCompare s) ∧
    (∀ s : Str, normalizedText s = [] ↔
        ∀ c ∈ s, (isStrippedRange c || isSpaceCP c) = true) ∧
    (∀ frames : List (List Str), ∀ seg ∈ segmentBuilder frames, seg.text ≠ []) :=
  ⟨normalizedText_idem, stripForCompare_idem, normalizedText_eq_nil_iff,
    fun frames seg hs => (segmentBuilder_inv frames seg hs).2.2⟩

/-- Witness for C5: the segment produced by the scenario run has nonempty
text. -/
theorem C5_witness : (⟨saleStr, 0, 1⟩ : Seg).text ≠ [] :=
  C5_normalization.2.2.2 scenarioFrames ⟨saleStr, 0, 1⟩ (by with_unfolding_all decide)

/-!
### C6 — the claim theorem
-/

/-- **C6** (confirmed).  Every `TextSegment` produced by the Segment Builder
from `n` sampled frames (frame `i` at timestamp `i * 0.5`, so the last
frame's timestamp is `(n-1) * 0.5`) has `end ≤ n * 0.5` — the last frame's
timestamp plus one frame interval — and its end is never earlier than its
start. -/
theorem C6_closing_contract (frames : List (List Str)) :
    ∀ s ∈ segmentBuilder frames,
      s.start ≤ s.tEnd ∧ s.tEnd ≤ (frames.length : ℚ) / 2 := by
  intro s hs
  have h := segmentBuilder_inv frames s hs
  exact ⟨h.1.le, h.2.1⟩

/-- Witness for C6: the first scenario segment `[0, 1]` of the six-frame
scenario satisfies both bounds. -/
theorem C6_witness :
    (⟨saleStr, 0, 1⟩ : Seg).start ≤ (⟨saleStr, 0, 1⟩ : Seg).tEnd ∧
    (⟨saleStr, 0, 1⟩ : Seg).tEnd ≤ (scenarioFrames.length : ℚ) / 2 :=
  C6_closing_contract scenarioFrames ⟨saleStr, 0, 1⟩ (by with_unfolding_all decide)

/-!
### C1 — Segment merge contract
-/

/-- A closed entry never matches. -/
theorem entryMatches_closed (txt : Str) (a b : ℚ) (nt : Str) :
    entryMatches ⟨txt, a, b, true⟩ nt = false := by
  simp [entryMatches]

/-- No extension happens over a list of closed entries. -/
theorem extendFirst_none_of_closed (ts : ℚ) (nt : Str) :
    ∀ l : List TextEntry, (∀ e ∈ l, e.closed = true) → extendFirst ts nt l = none
  | [], _ => rfl
  | x :: xs, h => by
    rw [extendFirst]
    have hx : x.closed = true := h x (by simp)
    rw [if_neg (by simp [entryMatches, hx]),
      extendFirst_none_of_closed ts nt xs (fun e he => h e (by simp [he]))]
    rfl

/-- An empty frame leaves an all-closed working list untouched. -/
theorem processFrame_empty_of_closed (ts : ℚ) (l : List TextEntry)
    (h : ∀ e ∈ l, e.closed = true) : processFrame ts l [] = l := by
  simp only [processFrame, List.foldl_nil, List.map_nil]
  unfold closeAbsent
  exact (List.map_congr_left fun e he => by
    rw [if_neg (by simp [h e he])]
    rfl).trans (List.map_id l)

/-- A frame detecting `"SALE"` over an all-closed working list opens a fresh
entry (and closes nothing, since the fresh entry is visible). -/
theorem processFrame_sale_closed (ts : ℚ) (l : List TextEntry)
    (h : ∀ e ∈ l, e.closed = true) :
    processFrame ts l [saleStr] = l ++ [⟨saleStr, ts, ts + frameInterval, false⟩] := by
  have hnt : normalizedText saleStr = saleStr := by decide
  have hfold : [saleStr].foldl (processDetection ts) l =
      l ++ [⟨saleStr, ts, ts + frameInterval, false⟩] := by
    simp only [List.foldl_cons, List.foldl_nil]
    unfold processDetection
    rw [hnt, if_neg (by decide), extendFirst_none_of_closed ts saleStr l h]
  simp only [processFrame, hfold]
  unfold closeAbsent
  rw [List.map_append]
  have h1 : l.map (fun t => if t.closed = false ∧
      (([saleStr].map stripForCompare).contains (stripForCompare t.text)) = false ∧
      t.start < ts then { t with tEnd := ts, closed := true } else t) = l :=
    (List.map_congr_left fun e he => by
      rw [if_neg (by simp [h e he])]
      rfl).trans (List.map_id l)
  have h2 : ([(⟨saleStr, ts, ts + frameInterval, false⟩ : TextEntry)]).map
      (fun t => if t.closed = false ∧
        (([saleStr].map stripForCompare).contains (stripForCompare t.text)) = false ∧
        t.start < ts then { t with tEnd := ts, closed := true } else t) =
      [⟨saleStr, ts, ts + frameInterval, false⟩] := by
    simp only [List.map_cons, List.map_nil]
    rw [if_neg]
    intro hcond
    have := hcond.2.1
    simp [List.contains_cons] at this
  rw [h1, h2]

/-- An empty frame closes a trailing open entry at the current timestamp and
leaves closed entries untouched. -/
theorem processFrame_empty_mixed (ts : ℚ) (l : List TextEntry)
    (h : ∀ e ∈ l, e.closed = true) (txt : Str) (a b : ℚ) (ha : a < ts) :
    processFrame ts (l ++ [⟨txt, a, b, false⟩]) [] = l ++ [⟨txt, a, ts, true⟩] := by
  simp only [processFrame, List.foldl_nil, List.map_nil]
  unfold closeAbsent
  rw [List.map_append]
  have h1 : l.map (fun t => if t.closed = false ∧
      (([] : List Str).contains (stripForCompare t.text)) = false ∧
      t.start < ts then { t with tEnd := ts, closed := true } else t) = l :=
    (List.map_congr_left fun e he => by
      rw [if_neg (by simp [h e he])]
      rfl).trans (List.map_id l)
  have h2 : ([(⟨txt, a, b, false⟩ : TextEntry)]).map
      (fun t => if t.closed = false ∧
        (([] : List Str).contains (stripForCompare t.text)) = false ∧
        t.start < ts then { t with tEnd := ts, closed := true } else t) =
      [⟨txt, a, ts, true⟩] := by
    simp only [List.map_cons, List.map_nil]
    rw [if_pos (by simp [ha])]
  rw [h1, h2]

/-- Empty frames advance the frame index without touching an all-closed
working list. -/
theorem runFrames_replicate_closed (l : List TextEntry)
    (h : ∀ e ∈ l, e.closed = true) :
    ∀ (m i : Nat) (rest : List (List Str)),
      runFrames i l (List.replicate m [] ++ rest) = runFrames (i + m) l rest
  | 0, i, rest => by simp [List.replicate]
  | m + 1, i, rest => by
    rw [List.replicate_succ, List.cons_append, runFrames,
      processFrame_empty_of_closed _ _ h,
      runFrames_replicate_closed l h m (i + 1) rest]
    congr 1
    omega

/-- The reappearance tail: a `"SALE"` detection at frame `i` over an
all-closed list, followed by one empty frame, appends one closed entry
`[i/2, (i+1)/2]`. -/
theorem runFrames_sale_tail (i : Nat) (l : List TextEntry)
    (h : ∀ e ∈ l, e.closed = true) :
    runFrames i l [[saleStr], []] =
      l ++ [⟨saleStr, (i : ℚ) / 2, ((i : ℚ) + 1) / 2, true⟩] := by
  rw [runFrames, processFrame_sale_closed _ _ h, runFrames, runFrames,
    processFrame_empty_mixed _ _ h saleStr _ _ (by
      push_cast
      linarith)]
  have : (((i + 1 : Nat) : ℚ)) / 2 = ((i : ℚ) + 1) / 2 := by
    push_cast
    ring
  rw [this]

/-- The first two frames of the two-detection family: the `"SALE"` entry is
opened at `0` and closed at `0.5` by the first empty frame. -/
theorem runFrames_first_two (rest : List (List Str)) :
    runFrames 0 [] ([saleStr] :: [] :: rest) =
      runFrames 2 [⟨saleStr, 0, 1/2, true⟩] rest := by
  rw [runFrames, runFrames]
  have h1 : processFrame (((0 : Nat) : ℚ) / 2) [] [saleStr] =
      [⟨saleStr, 0, 1/2, false⟩] := by
    with_unfolding_all decide
  have h2 : processFrame (((0 + 1 : Nat) : ℚ) / 2) [⟨saleStr, 0, 1/2, false⟩] [] =
      [⟨saleStr, 0, 1/2, true⟩] := by
    with_unfolding_all decide
  rw [h1, h2]

/-- The working list after the whole two-detection family run, for a gap of
`k ≥ 3` frame intervals: two disjoint closed entries. -/
theorem runFrames_pair_ge3 (k : Nat) (hk : 3 ≤ k) :
    runFrames 0 [] (pairFrames k) =
      [⟨saleStr, 0, 1/2, true⟩,
       ⟨saleStr, (k : ℚ) / 2, ((k : ℚ) + 1) / 2, true⟩] := by
  have hclosed : ∀ e ∈ [(⟨saleStr, 0, 1/2, true⟩ : TextEntry)], e.closed = true := by
    intro e he
    rcases List.mem_singleton.mp he with rfl
    rfl
  have hsplit : pairFrames k =
      [saleStr] :: [] :: (List.replicate (k - 2) [] ++ [[saleStr], []]) := by
    unfold pairFrames
    congr 1
    have hrep : k - 1 = (k - 2) + 1 := by omega
    rw [hrep, List.replicate_succ]
    simp [List.append_assoc]
  rw [hsplit, runFrames_first_two, runFrames_replicate_closed _ hclosed (k - 2) 2 _,
    runFrames_sale_tail _ _ hclosed]
  have hcast : ((2 + (k - 2) : Nat) : ℚ) = (k : ℚ) := by
    have : (2 + (k - 2) : Nat) = k := by omega
    rw [this]
  rw [hcast]
  rfl

/-- The anti-brand/size/length filters accept a `"SALE"` entry whose
duration is within the 70% cutoff. -/
theorem passesFilters_sale (n : Nat) (a b : ℚ) (cl : Bool)
    (h : ¬(b - a > (n : ℚ) * (1/2) * (7/10))) :
    passesFilters n ⟨saleStr, a, b, cl⟩ = true := by
  unfold passesFilters
  rw [Bool.and_eq_true]
  constructor
  · show textFilterOK (jsTrim (saleStr.map toLowerCP)) = true
    decide
  · show (!decide (b - a > (n : ℚ) * (1/2) * (7/10))) = true
    simp only [Bool.not_eq_true', decide_eq_false_iff_not]
    exact h

/-- End-of-stream close is the identity on an all-closed list. -/
theorem closeAll_closed (l : List TextEntry) (n : Nat)
    (h : ∀ e ∈ l, e.closed = true) : closeAll l n = l := by
  unfold closeAll
  by_cases hn : n = 0
  · rw [if_pos hn]
  · rw [if_neg hn]
    exact (List.map_congr_left fun e he => by
      rw [if_pos (h e he)]
      rfl).trans (List.map_id l)

/-- Sorting a sorted pair is the identity. -/
theorem sortByStart_pair (s1 s2 : Seg) (h : s1.start ≤ s2.start) :
    sortByStart [s1, s2] = [s1, s2] := by
  simp [sortByStart, insertByStart, h]

/-- The first segment into the merge accumulator. -/
theorem mergeStep_nil (t : Seg) : mergeStep [] t = [t] := by
  simp [mergeStep, mergeInto]

/-- A segment that neither overlaps nor is within the 0.5s gap of the only
accumulated segment is appended unchanged. -/
theorem mergeStep_no_match (m t : Seg)
    (hc : ¬(stripForCompare m.text = stripForCompare t.text ∧
      ((t.start ≤ m.tEnd ∧ m.start ≤ t.tEnd) ∨
        (0 < t.start - m.tEnd ∧ t.start - m.tEnd ≤ 1/2)))) :
    mergeStep [m] t = [m, t] := by
  unfold mergeStep mergeInto
  rw [if_neg hc]
  rfl

/-- The builder's output on the two-detection family for `k ≥ 3`: two
disjoint segments, the first ending at `0.5` and the second starting at the
second detection's timestamp. -/
theorem segmentBuilder_pair_ge3 (k : Nat) (hk : 3 ≤ k) :
    segmentBuilder (pairFrames k) =
      [⟨saleStr, 0, 1/2⟩, ⟨saleStr, (k : ℚ) / 2, ((k : ℚ) + 1) / 2⟩] := by
  have hkq : (3 : ℚ) ≤ (k : ℚ) := by exact_mod_cast hk
  have hn : (pairFrames k).length = k + 2 := by
    unfold pairFrames
    simp only [List.length_cons, List.length_append, List.length_replicate,
      List.length_nil]
    omega
  have hclosed2 : ∀ e ∈ [(⟨saleStr, 0, 1/2, true⟩ : TextEntry),
      ⟨saleStr, (k : ℚ) / 2, ((k : ℚ) + 1) / 2, true⟩], e.closed = true := by
    intro e he
    rcases List.mem_cons.mp he with rfl | he
    · rfl
    · rcases List.mem_singleton.mp he with rfl
      rfl
  have hdur : ¬((1 : ℚ)/2 - 0 > ((k + 2 : Nat) : ℚ) * (1/2) * (7/10)) := by
    push_cast
    intro hgt
    nlinarith
  have hdur2 : ¬(((k : ℚ) + 1)/2 - (k : ℚ)/2 > ((k + 2 : Nat) : ℚ) * (1/2) * (7/10)) := by
    push_cast
    intro hgt
    nlinarith
  unfold segmentBuilder
  rw [runFrames_pair_ge3 k hk, hn, closeAll_closed _ _ hclosed2]
  rw [show List.filter (passesFilters (k + 2))
      [(⟨saleStr, 0, 1/2, true⟩ : TextEntry),
       ⟨saleStr, (k : ℚ) / 2, ((k : ℚ) + 1) / 2, true⟩] =
      [⟨saleStr, 0, 1/2, true⟩, ⟨saleStr, (k : ℚ) / 2, ((k : ℚ) + 1) / 2, true⟩] from by
    rw [List.filter_cons, List.filter_cons, List.filter_nil,
      passesFilters_sale _ _ _ _ hdur, passesFilters_sale _ _ _ _ hdur2]
    simp]
  simp only [List.map_cons, List.map_nil]
  rw [sortByStart_pair _ _ (by
    show (0 : ℚ) ≤ (k : ℚ) / 2
    positivity)]
  simp only [List.foldl_cons, List.foldl_nil]
  rw [mergeStep_nil, mergeStep_no_match]
  intro hcond
  rcases hcond.2 with hov | hgap
  · have : (k : ℚ) / 2 ≤ 1/2 := hov.1
    linarith
  · have : (k : ℚ) / 2 - 1/2 ≤ 1/2 := hgap.2
    linarith

/-- **C1 counterexample** (the claim as stated is false).  Two detections of
normalized-identical text (`"SALE"`) at `t = 0.0` and `t + g = 1.0`, with
frame interval `f = 0.5` and `g = 1.0 > f`: the claim requires two disjoint
segments, but the builder produces exactly one segment `[0.0, 1.5]` — the
close-on-absence pass first splits them (`[0, 0.5]` and `[1.0, 1.5]`), but
the final merge pass re-unifies the two, because their gap `1.0 − 0.5 = 0.5`
is within its own 0.5-second consecutiveness tolerance. -/
theorem C1_counterexample :
    segmentBuilder [[saleStr], [], [saleStr]] = [⟨saleStr, 0, 3/2⟩] ∧
    frameInterval < (1 : ℚ) - 0 := by
  with_unfolding_all decide

/-- **C1 amended** (as the counterexample forces).  For two detections of
the normalized-identical text `"SALE"` at `t = 0` and `t + g` with
`g = k * 0.5` (`k ≥ 1` whole frame intervals, no detection in between, and
the sampled stream extending one frame past the second detection), the
builder merges them into ONE segment iff `g ≤ 2f = 1.0` — for `g = f` by
extension of the open entry, for `g = 2f` by the final merge pass
re-unifying the two closed entries whose gap is exactly `0.5` — and for
`g > 2f` it produces two disjoint segments whose first segment ends at
`t + f = 0.5` (not at or before the first detection's timestamp, contrary to
the claim) and whose second segment starts at the second detection's
timestamp `t + g`.  The claim's three-detection scenario is as stated:
detections at `0.0, 0.5, 2.5` yield exactly
`[{SALE, 0.0, 1.0}, {SALE, 2.5, 3.0}]`. -/
theorem C1_merge_amended (k : Nat) (hk : 1 ≤ k) :
    (k ≤ 2 → segmentBuilder (pairFrames k) = [⟨saleStr, 0, ((k : ℚ) + 1) / 2⟩]) ∧
    (3 ≤ k → segmentBuilder (pairFrames k) =
      [⟨saleStr, 0, 1/2⟩, ⟨saleStr, (k : ℚ) / 2, ((k : ℚ) + 1) / 2⟩]) ∧
    segmentBuilder scenarioFrames = [⟨saleStr, 0, 1⟩, ⟨saleStr, 5/2, 3⟩] := by
  refine ⟨?_, fun h3 => segmentBuilder_pair_ge3 k h3, by with_unfolding_all decide⟩
  intro hk2
  interval_cases k
  · with_unfolding_all decide
  · with_unfolding_all decide

/-- Witness for C1: at `k = 3` (gap `1.5 > 1.0`) the builder produces the
two disjoint segments `[0, 0.5]` and `[1.5, 2.0]`. -/
theorem C1_merge_amended_witness :
    segmentBuilder (pairFrames 3) =
      [⟨saleStr, 0, 1/2⟩, ⟨saleStr, ((3 : Nat) : ℚ) / 2, (((3 : Nat) : ℚ) + 1) / 2⟩] :=
  (C1_merge_amended 3 (by decide)).2.1 (by decide)

/-!
### C8 — Scene minimum-duration invariant
-/

/-- Each merge pass removes exactly one interval. -/
theorem mergeOnce_length : ∀ (l l' : List Scene), mergeOnce l = some l' →
    l'.length + 1 = l.length
  | [], _, h => by simp [mergeOnce] at h
  | [_], _, h => by simp [mergeOnce] at h
  | [s, t], l', h => by
    rw [mergeOnce] at h
    by_cases h1 : s.tEnd - s.start < 1
    · rw [if_pos h1] at h
      rw [← Option.some.inj h]
      rfl
    · rw [if_neg h1] at h
      by_cases h2 : t.tEnd - t.start < 1
      · rw [if_pos h2] at h
        rw [← Option.some.inj h]
        rfl
      · rw [if_neg h2] at h
        exact absurd h (by simp)
  | s :: t :: u :: rest, l', h => by
    rw [mergeOnce] at h
    by_cases h1 : s.tEnd - s.start < 1
    · rw [if_pos h1] at h
      rw [← Option.some.inj h]
      simp
    · rw [if_neg h1] at h
      rcases Option.map_eq_some'.mp h with ⟨l'', hl'', rfl⟩
      have hlen := mergeOnce_length (t :: u :: rest) l'' hl''
      simp only [List.length_cons] at hlen ⊢
      omega

/-- A merge pass keeps the first interval's start time. -/
theorem mergeOnce_head_start : ∀ (l l' : List Scene), mergeOnce l = some l' →
    l'.head?.map Scene.start = l.head?.map Scene.start
  | [], _, h => by simp [mergeOnce] at h
  | [_], _, h => by simp [mergeOnce] at h
  | [s, t], l', h => by
    rw [mergeOnce] at h
    by_cases h1 : s.tEnd - s.start < 1
    · rw [if_pos h1] at h
      rw [← Option.some.inj h]
      rfl
    · rw [if_neg h1] at h
      by_cases h2 : t.tEnd - t.start < 1
      · rw [if_pos h2] at h
        rw [← Option.some.inj h]
        rfl
      · rw [if_neg h2] at h
        exact absurd h (by simp)
  | s :: t :: u :: rest, l', h => by
    rw [mergeOnce] at h
    by_cases h1 : s.tEnd - s.start < 1
    · rw [if_pos h1] at h
      rw [← Option.some.inj h]
      rfl
    · rw [if_neg h1] at h
      rcases Option.map_eq_some'.mp h with ⟨l'', _, rfl⟩
      rfl

/-- A merge pass keeps the last interval's end time. -/
theorem mergeOnce_last_end : ∀ (l l' : List Scene), mergeOnce l = some l' →
    l'.getLast?.map Scene.tEnd = l.getLast?.map Scene.tEnd
  | [], _, h => by simp [mergeOnce] at h
  | [_], _, h => by simp [mergeOnce] at h
  | [s, t], l', h => by
    rw [mergeOnce] at h
    by_cases h1 : s.tEnd - s.start < 1
    · rw [if_pos h1] at h
      rw [← Option.some.inj h]
      rfl
    · rw [if_neg h1] at h
      by_cases h2 : t.tEnd - t.start < 1
      · rw [if_pos h2] at h
        rw [← Option.some.inj h]
        rfl
      · rw [if_neg h2] at h
        exact absurd h (by simp)
  | s :: t :: u :: rest, l', h => by
    rw [mergeOnce] at h
    by_cases h1 : s.tEnd - s.start < 1
    · rw [if_pos h1] at h
      rw [← Option.some.inj h]
      simp [List.getLast?_cons_cons]
    · rw [if_neg h1] at h
      rcases Option.map_eq_some'.mp h with ⟨l'', hl'', rfl⟩
      have hlen := mergeOnce_length (t :: u :: rest) l'' hl''
      have hne : l'' ≠ [] := by
        intro e
        subst e
        simp at hlen
      have hrec := mergeOnce_last_end (t :: u :: rest) l'' hl''
      rcases hl2 : l'' with _ | ⟨x, xs⟩
      · exact absurd hl2 hne
      · subst hl2
        rw [List.getLast?_cons_cons, List.getLast?_cons_cons]
        rw [← hrec]

/-- When no merge applies, either one interval remains or all intervals meet
the minimum duration. -/
theorem mergeOnce_none : ∀ l : List Scene, mergeOnce l = none →
    l.length ≤ 1 ∨ ∀ s ∈ l, 1 ≤ s.tEnd - s.start
  | [], _ => Or.inl (by simp)
  | [_], _ => Or.inl (by simp)
  | [s, t], h => by
    rw [mergeOnce] at h
    by_cases h1 : s.tEnd - s.start < 1
    · rw [if_pos h1] at h
      exact absurd h (by simp)
    · rw [if_neg h1] at h
      by_cases h2 : t.tEnd - t.start < 1
      · rw [if_pos h2] at h
        exact absurd h (by simp)
      · refine Or.inr fun x hx => ?_
        rcases List.mem_cons.mp hx with rfl | hx
        · linarith
        · rcases List.mem_singleton.mp hx with rfl
          linarith
  | s :: t :: u :: rest, h => by
    rw [mergeOnce] at h
    by_cases h1 : s.tEnd - s.start < 1
    · rw [if_pos h1] at h
      exact absurd h (by simp)
    · rw [if_neg h1] at h
      have hin : mergeOnce (t :: u :: rest) = none := by
        rcases hmo : mergeOnce (t :: u :: rest) with _ | l'
        · rfl
        · rw [hmo] at h
          simp at h
      rcases mergeOnce_none (t :: u :: rest) hin with hlen | hall
      · simp at hlen
      · refine Or.inr fun x hx => ?_
        rcases List.mem_cons.mp hx with rfl | hx
        · linarith
        · exact hall x hx

/-- Length-many fuel always drains the merge loop: afterwards no merge
applies. -/
theorem mergeLoopFuel_none : ∀ (fuel : Nat) (l : List Scene), l.length ≤ fuel →
    mergeOnce (mergeLoopFuel fuel l) = none
  | 0, l, h => by
    have he : l = [] := List.eq_nil_of_length_eq_zero (by omega)
    subst he
    rfl
  | fuel + 1, l, h => by
    rcases hmo : mergeOnce l with _ | l'
    · rw [mergeLoopFuel, hmo]
      exact hmo
    · rw [mergeLoopFuel, hmo]
      have hlen := mergeOnce_length l l' hmo
      exact mergeLoopFuel_none fuel l' (by omega)

/-- The merge loop keeps the first interval's start time. -/
theorem mergeLoopFuel_head_start : ∀ (fuel : Nat) (l : List Scene),
    (mergeLoopFuel fuel l).head?.map Scene.start = l.head?.map Scene.start
  | 0, _ => rfl
  | fuel + 1, l => by
    rcases hmo : mergeOnce l with _ | l'
    · rw [mergeLoopFuel, hmo]
    · rw [mergeLoopFuel, hmo]
      rw [mergeLoopFuel_head_start fuel l']
      exact mergeOnce_head_start l l' hmo

/-- The merge loop keeps the last interval's end time. -/
theorem mergeLoopFuel_last_end : ∀ (fuel : Nat) (l : List Scene),
    (mergeLoopFuel fuel l).getLast?.map Scene.tEnd = l.getLast?.map Scene.tEnd
  | 0, _ => rfl
  | fuel + 1, l => by
    rcases hmo : mergeOnce l with _ | l'
    · rw [mergeLoopFuel, hmo]
    · rw [mergeLoopFuel, hmo]
      rw [mergeLoopFuel_last_end fuel l']
      exact mergeOnce_last_end l l' hmo

/-- The first raw interval starts at the first cut. -/
theorem mkIntervals_head_start (total : ℚ) (a : ℚ) (rest : List ℚ) :
    (mkIntervals total (a :: rest)).head?.map Scene.start = some a := by
  cases rest with
  | nil => rfl
  | cons b r => rfl

/-- The last raw interval ends at the video duration. -/
theorem mkIntervals_last_end (total : ℚ) :
    ∀ cuts : List ℚ, cuts ≠ [] →
      (mkIntervals total cuts).getLast?.map Scene.tEnd = some total
  | [], h => absurd rfl h
  | [a], _ => rfl
  | a :: b :: rest, _ => by
    rw [mkIntervals]
    have hne : mkIntervals total (b :: rest) ≠ [] := by
      cases rest <;> simp [mkIntervals]
    have hrec := mkIntervals_last_end total (b :: rest) (by simp)
    rcases hmk : mkIntervals total (b :: rest) with _ | ⟨x, xs⟩
    · exact absurd hmk hne
    · rw [hmk] at hrec
      rw [List.getLast?_cons_cons]
      exact hrec

/-- Rounding both bounds to one decimal cannot take a duration of at least
one second below one second (`Math.round(x*10)/10` moves each bound by at
most `0.05`, and the result lives on the `0.1` grid). -/
theorem round1_sub_ge_one (a b : ℚ) (h : 1 ≤ b - a) : 1 ≤ round1 b - round1 a := by
  unfold round1
  have key : ⌊a * 10 + 1/2⌋ + 10 ≤ ⌊b * 10 + 1/2⌋ := by
    have h2 : ⌊a * 10 + 1/2 + ((10 : ℤ) : ℚ)⌋ ≤ ⌊b * 10 + 1/2⌋ := by
      apply Int.floor_le_floor
      push_cast
      linarith
    rwa [Int.floor_add_int] at h2
  have hq : ((⌊a * 10 + 1/2⌋ : ℤ) : ℚ) + 10 ≤ ((⌊b * 10 + 1/2⌋ : ℤ) : ℚ) := by
    exact_mod_cast key
  linarith

/-- **C8** (confirmed).  After the Scene Splitter's merge pass and the
rounding of interval bounds to one decimal place, every output scene lasts
at least the 1.0-second minimum whenever the video itself is at least 1.0
seconds long (when the whole timeline is shorter, only the single interval
`[0, total]` can remain, which is the claim's allowed exception). -/
theorem C8_min_duration (times : List ℚ) (total : ℚ) (htotal : 1 ≤ total) :
    ∀ s ∈ smartScenes times total, 1 ≤ s.tEnd - s.start := by
  intro s hs
  unfold smartScenes mergeLoop at hs
  rcases List.mem_map.mp hs with ⟨x, hx, rfl⟩
  simp only []
  have hnone := mergeLoopFuel_none (mkIntervals total (rawSceneTimes times)).length
    (mkIntervals total (rawSceneTimes times)) (le_refl _)
  rcases mergeOnce_none _ hnone with hlen | hall
  · rcases hml : mergeLoopFuel (mkIntervals total (rawSceneTimes times)).length
        (mkIntervals total (rawSceneTimes times)) with _ | ⟨y, ys⟩
    · rw [hml] at hx
      simp at hx
    · have hys : ys = [] := by
        rw [hml] at hlen
        simpa using hlen
      subst hys
      rw [hml] at hx
      rcases List.mem_singleton.mp hx with rfl
      have hhead := mergeLoopFuel_head_start
        (mkIntervals total (rawSceneTimes times)).length
        (mkIntervals total (rawSceneTimes times))
      have hlast := mergeLoopFuel_last_end
        (mkIntervals total (rawSceneTimes times)).length
        (mkIntervals total (rawSceneTimes times))
      rw [hml] at hhead hlast
      rw [rawSceneTimes, mkIntervals_head_start] at hhead
      rw [mkIntervals_last_end total _ (by simp [rawSceneTimes])] at hlast
      simp only [List.head?_cons, Option.map_some', List.getLast?_singleton,
        Option.some.injEq] at hhead hlast
      have hy0 : x.start = 0 := hhead
      have hyt : x.tEnd = total := hlast
      rw [hy0, hyt]
      exact round1_sub_ge_one 0 total (by linarith)
  · exact round1_sub_ge_one x.start x.tEnd (hall x hx)

/-- Witness for C8: the single cut at `5.0` on a 10-second video yields
scenes `[0, 5]` and `[5, 10]`; the first has duration `5 ≥ 1`. -/
theorem C8_witness : 1 ≤ (⟨0, 5⟩ : Scene).tEnd - (⟨0, 5⟩ : Scene).start :=
  C8_min_duration [5] 10 (by norm_num) ⟨0, 5⟩ (by with_unfolding_all decide)

end VideoLocalizer
